import Mathlib

/-!
Formal model of the core of the Topological1D-WassersteinDistance repository.

The development shallowly embeds the two core modules:
* `weaver/metrics/wasserstein.py` (`WassersteinMetric`): periodic cost matrix,
  Gaussian kernel density estimates, and the exact optimal-transport solve
  (`ot.emd`, an external library, is modelled by its contract: it returns a
  transport plan with the prescribed marginals of minimal total cost);
* `src/metrics/voronoi.py` (`VoronoiAnalyzer`): periodic padding, the
  circumcenter formula with its degenerate fallback, the primitive-cell
  construction, the cell-to-cell remap used by the interpolator, and the
  per-query-point loop of `interpolate_displacements`.

Machine floating point is modelled by exact arithmetic (`ℝ` where the code
computes with norms, exponentials and square roots, `ℚ` where the computation
is purely rational); numpy float means real number, and the "non-finite"
(NaN/inf) states tracked by the cost-matrix guard are modelled by `Option ℝ`.
-/

namespace Weaver

/-- In-plane point: a 2-vector, one row of a numpy `(N, 2)` array. -/
abbrev Pt : Type := ℝ × ℝ

/-- Squared Euclidean norm of a 2-vector. -/
def sqnorm (p : Pt) : ℝ := p.1 ^ 2 + p.2 ^ 2

/-- Euclidean norm: `np.linalg.norm(-, axis=-1)` applied to a 2-vector. -/
noncomputable def ptNorm (p : Pt) : ℝ := Real.sqrt (sqnorm p)

/-- Integer scalar multiple of a 2-vector (`i * self.lattice_vectors[0]`). -/
def ismul (i : ℤ) (p : Pt) : Pt := ((i : ℝ) * p.1, (i : ℝ) * p.2)

/-- The integer list produced by python `range(-2, 3)`. -/
def range5 : List ℤ := [-2, -1, 0, 1, 2]

/-- The 25 periodic offsets `i·a1 + j·a2`, `i, j ∈ range(-2, 3)`, in the
enumeration order of the list comprehension in
`WassersteinMetric._calculate_cost_matrix` (wasserstein.py lines 158-162). -/
def offsets (a1 a2 : Pt) : List Pt :=
  range5.flatMap (fun i => range5.map (fun j => ismul i a1 + ismul j a2))

/-- `np.min` along a nonempty axis, as a fold; `0` on the empty list
(unreachable for the axes the code reduces). -/
noncomputable def listMinD : List ℝ → ℝ
  | [] => 0
  | x :: xs => xs.foldl min x

theorem listMinD_cons (x : ℝ) (xs : List ℝ) : listMinD (x :: xs) = xs.foldl min x := rfl

theorem foldl_min_le_init (x : ℝ) (xs : List ℝ) : xs.foldl min x ≤ x := by
  induction xs generalizing x with
  | nil => simp
  | cons a l ih => exact le_trans (ih (min x a)) (min_le_left x a)

theorem foldl_min_le_mem (x : ℝ) (xs : List ℝ) (y : ℝ) (hy : y ∈ xs) :
    xs.foldl min x ≤ y := by
  induction xs generalizing x with
  | nil => cases hy
  | cons a l ih =>
    rcases List.mem_cons.mp hy with h | h
    · subst h
      exact le_trans (foldl_min_le_init (min x y) l) (min_le_right x y)
    · exact ih (min x a) h

/-- The fold result is a lower bound of every element of the list. -/
theorem listMinD_le (x : ℝ) (xs : List ℝ) (y : ℝ) (hy : y ∈ x :: xs) :
    listMinD (x :: xs) ≤ y := by
  rcases List.mem_cons.mp hy with h | h
  · subst h; exact foldl_min_le_init y xs
  · exact foldl_min_le_mem x xs y h

/-- Any lower bound of the list is below the fold result. -/
theorem le_listMinD (x : ℝ) (xs : List ℝ) (c : ℝ) (hc : ∀ y ∈ x :: xs, c ≤ y) :
    c ≤ listMinD (x :: xs) := by
  rw [listMinD_cons]
  induction xs generalizing x with
  | nil => exact hc x (by simp)
  | cons a l ih =>
    refine ih (min x a) ?_
    intro y hy
    rcases List.mem_cons.mp hy with h | h
    · subst h
      exact le_min (hc x (by simp)) (hc a (by simp))
    · exact hc y (by simp [h])

/-- The fold result is an element of the list. -/
theorem listMinD_mem (x : ℝ) (xs : List ℝ) : listMinD (x :: xs) ∈ x :: xs := by
  rw [listMinD_cons]
  induction xs generalizing x with
  | nil => simp
  | cons a l ih =>
    rw [List.foldl_cons]
    have h := ih (min x a)
    rcases List.mem_cons.mp h with h' | h'
    · rcases min_choice x a with hm | hm
      · have hx : List.foldl min (min x a) l = x := h'.trans hm
        simp [hx]
      · have ha : List.foldl min (min x a) l = a := h'.trans hm
        simp [ha]
    · simp [h']

theorem listMinD_mem_of_ne_nil (l : List ℝ) (h : l ≠ []) : listMinD l ∈ l := by
  cases l with
  | nil => exact absurd rfl h
  | cons x xs => exact listMinD_mem x xs

theorem listMinD_le_of_ne_nil (l : List ℝ) (h : l ≠ []) (y : ℝ) (hy : y ∈ l) :
    listMinD l ≤ y := by
  cases l with
  | nil => cases hy
  | cons x xs => exact listMinD_le x xs y hy

theorem le_listMinD_of_ne_nil (l : List ℝ) (h : l ≠ []) (c : ℝ)
    (hc : ∀ y ∈ l, c ≤ y) : c ≤ listMinD l := by
  cases l with
  | nil => exact absurd rfl h
  | cons x xs => exact le_listMinD x xs c hc

/-- Two nonempty lists with the same members have the same minimum. -/
theorem listMinD_eq_of_mem_iff (l₁ l₂ : List ℝ) (h₁ : l₁ ≠ []) (h₂ : l₂ ≠ [])
    (h : ∀ y, y ∈ l₁ ↔ y ∈ l₂) : listMinD l₁ = listMinD l₂ := by
  apply le_antisymm
  · exact listMinD_le_of_ne_nil l₁ h₁ _ ((h _).mpr (listMinD_mem_of_ne_nil l₂ h₂))
  · exact listMinD_le_of_ne_nil l₂ h₂ _ ((h _).mp (listMinD_mem_of_ne_nil l₁ h₁))

/-- One entry of the periodic cost matrix: the minimum Euclidean norm of
`p - q + offset` over the 25 periodic offsets
(`WassersteinMetric._calculate_cost_matrix`, wasserstein.py lines 164-172). -/
noncomputable def costEntry (a1 a2 : Pt) (p q : Pt) : ℝ :=
  listMinD ((offsets a1 a2).map (fun o => ptNorm (p - q + o)))

/-- The periodic cost matrix between two point lists. -/
noncomputable def costMatrix (a1 a2 : Pt) (A B : List Pt) :
    Fin A.length → Fin B.length → ℝ :=
  fun i j => costEntry a1 a2 (A.get i) (B.get j)

theorem offsets_ne_nil (a1 a2 : Pt) : offsets a1 a2 ≠ [] := by
  simp [offsets, range5]

theorem mem_offsets (a1 a2 : Pt) (o : Pt) :
    o ∈ offsets a1 a2 ↔ ∃ i ∈ range5, ∃ j ∈ range5, o = ismul i a1 + ismul j a2 := by
  simp only [offsets, List.mem_flatMap, List.mem_map]
  constructor
  · rintro ⟨i, hi, j, hj, rfl⟩
    exact ⟨i, hi, j, hj, rfl⟩
  · rintro ⟨i, hi, j, hj, rfl⟩
    exact ⟨i, hi, j, hj, rfl⟩

theorem neg_mem_range5 (i : ℤ) (h : i ∈ range5) : -i ∈ range5 := by
  simp only [range5, List.mem_cons, List.not_mem_nil, or_false] at h ⊢
  omega

theorem sqnorm_nonneg (p : Pt) : 0 ≤ sqnorm p := by
  simp only [sqnorm]
  positivity

theorem ptNorm_nonneg (p : Pt) : 0 ≤ ptNorm p := Real.sqrt_nonneg _

theorem ptNorm_neg (p : Pt) : ptNorm (-p) = ptNorm p := by
  simp [ptNorm, sqnorm]

theorem costEntry_nonneg (a1 a2 p q : Pt) : 0 ≤ costEntry a1 a2 p q := by
  apply le_listMinD_of_ne_nil
  · simp [offsets_ne_nil a1 a2]
  · intro y hy
    rcases List.mem_map.mp hy with ⟨o, _, rfl⟩
    exact ptNorm_nonneg _

/-- The cost entry is a lower bound for the norm at every periodic offset. -/
theorem costEntry_le (a1 a2 p q : Pt) (i j : ℤ) (hi : i ∈ range5) (hj : j ∈ range5) :
    costEntry a1 a2 p q ≤ ptNorm (p - q + (ismul i a1 + ismul j a2)) := by
  apply listMinD_le_of_ne_nil
  · simp [offsets_ne_nil a1 a2]
  · exact List.mem_map.mpr ⟨_, (mem_offsets a1 a2 _).mpr ⟨i, hi, j, hj, rfl⟩, rfl⟩

/-- The cost entry is attained at one of the 25 periodic offsets. -/
theorem costEntry_attained (a1 a2 p q : Pt) :
    ∃ i ∈ range5, ∃ j ∈ range5,
      costEntry a1 a2 p q = ptNorm (p - q + (ismul i a1 + ismul j a2)) := by
  have h := listMinD_mem_of_ne_nil ((offsets a1 a2).map (fun o => ptNorm (p - q + o)))
    (by simp [offsets_ne_nil a1 a2])
  rcases List.mem_map.mp h with ⟨o, ho, he⟩
  rcases (mem_offsets a1 a2 o).mp ho with ⟨i, hi, j, hj, rfl⟩
  exact ⟨i, hi, j, hj, he.symm⟩

theorem le_costEntry (a1 a2 p q : Pt) (c : ℝ)
    (hc : ∀ i ∈ range5, ∀ j ∈ range5, c ≤ ptNorm (p - q + (ismul i a1 + ismul j a2))) :
    c ≤ costEntry a1 a2 p q := by
  apply le_listMinD_of_ne_nil
  · simp [offsets_ne_nil a1 a2]
  · intro y hy
    rcases List.mem_map.mp hy with ⟨o, ho, rfl⟩
    rcases (mem_offsets a1 a2 o).mp ho with ⟨i, hi, j, hj, rfl⟩
    exact hc i hi j hj

/-- Swapping the two points transposes a cost entry: the offset grid is
closed under negation and the norm is even. -/
theorem costEntry_comm (a1 a2 p q : Pt) :
    costEntry a1 a2 q p = costEntry a1 a2 p q := by
  unfold costEntry
  apply listMinD_eq_of_mem_iff
  · simp [offsets_ne_nil a1 a2]
  · simp [offsets_ne_nil a1 a2]
  · intro y
    simp only [List.mem_map]
    constructor
    · rintro ⟨o, ho, rfl⟩
      rcases (mem_offsets a1 a2 o).mp ho with ⟨i, hi, j, hj, rfl⟩
      refine ⟨ismul (-i) a1 + ismul (-j) a2,
        (mem_offsets a1 a2 _).mpr ⟨-i, neg_mem_range5 i hi, -j, neg_mem_range5 j hj, rfl⟩, ?_⟩
      have : p - q + (ismul (-i) a1 + ismul (-j) a2)
          = -(q - p + (ismul i a1 + ismul j a2)) := by
        simp only [ismul, Prod.ext_iff, Prod.fst_add, Prod.snd_add, Prod.fst_sub,
          Prod.snd_sub, Prod.fst_neg, Prod.snd_neg, Int.cast_neg]
        constructor <;> ring
      rw [this, ptNorm_neg]
    · rintro ⟨o, ho, rfl⟩
      rcases (mem_offsets a1 a2 o).mp ho with ⟨i, hi, j, hj, rfl⟩
      refine ⟨ismul (-i) a1 + ismul (-j) a2,
        (mem_offsets a1 a2 _).mpr ⟨-i, neg_mem_range5 i hi, -j, neg_mem_range5 j hj, rfl⟩, ?_⟩
      have : q - p + (ismul (-i) a1 + ismul (-j) a2)
          = -(p - q + (ismul i a1 + ismul j a2)) := by
        simp only [ismul, Prod.ext_iff, Prod.fst_add, Prod.snd_add, Prod.fst_sub,
          Prod.snd_sub, Prod.fst_neg, Prod.snd_neg, Int.cast_neg]
        constructor <;> ring
      rw [this, ptNorm_neg]

/-- A point at zero periodic difference has cost entry zero. -/
theorem costEntry_self (a1 a2 p : Pt) : costEntry a1 a2 p p = 0 := by
  apply le_antisymm
  · have h := costEntry_le a1 a2 p p 0 0 (by simp [range5]) (by simp [range5])
    have : p - p + (ismul 0 a1 + ismul 0 a2) = (0, 0) := by
      simp [ismul, Prod.ext_iff]
    rw [this] at h
    simpa [ptNorm, sqnorm] using h
  · exact costEntry_nonneg a1 a2 p p

/-! ### Kernel density estimate and marginals (wasserstein.py lines 57-76, 106-134) -/

/-- Squared distance between entries `i` and `j` of a point list. -/
def sqDistL (l : List Pt) (i j : Fin l.length) : ℝ := sqnorm (l.get i - l.get j)

/-- The sum of Gaussian kernels at entry `i`, the only data-dependent factor of
the sklearn `KernelDensity(kernel='gaussian')` score at the list's own points. -/
noncomputable def kdeRaw (l : List Pt) (h : ℝ) (i : Fin l.length) : ℝ :=
  ∑ j : Fin l.length, Real.exp (-(sqDistL l i j) / (2 * h ^ 2))

/-- Modelled from the spec: the external sklearn Gaussian `KernelDensity`
evaluated at the list's own points: the kernel sum times the 2-D Gaussian
normalisation `1 / (n · 2π h²)`. -/
noncomputable def skDensity (l : List Pt) (h : ℝ) (i : Fin l.length) : ℝ :=
  (1 / (l.length * (2 * Real.pi * h ^ 2))) * kdeRaw l h i

/-- `WassersteinMetric._calculate_density`: the KDE values rescaled by
`len(points) / np.sum(density)` (wasserstein.py lines 128-134). -/
noncomputable def calcDensity (l : List Pt) (h : ℝ) (i : Fin l.length) : ℝ :=
  skDensity l h i * (l.length / ∑ j : Fin l.length, skDensity l h j)

/-- The normalisation `density / np.sum(density)` of wasserstein.py line 71:
the probability vector fed to `ot.emd` as a marginal. -/
noncomputable def densityNorm (l : List Pt) (h : ℝ) (i : Fin l.length) : ℝ :=
  calcDensity l h i / ∑ j : Fin l.length, calcDensity l h j

/-- The default KDE bandwidth
`np.linalg.norm(self.lattice_vectors[0]) / np.sqrt(4 * len(displacements1))`
(wasserstein.py line 59): it depends on the first argument only. -/
noncomputable def defaultBandwidth (a1 : Pt) (l : List Pt) : ℝ :=
  ptNorm a1 / Real.sqrt (4 * l.length)

/-- The uniform baseline distribution `np.ones(n) / n` (wasserstein.py 75-76). -/
noncomputable def uniformDist (n : ℕ) : Fin n → ℝ := fun _ => 1 / n

theorem kdeRaw_pos (l : List Pt) (h : ℝ) (_hl : l ≠ []) (i : Fin l.length) :
    0 < kdeRaw l h i := by
  apply Finset.sum_pos
  · intro j _
    exact Real.exp_pos _
  · refine ⟨i, Finset.mem_univ i⟩

theorem sum_kdeRaw_pos (l : List Pt) (h : ℝ) (hl : l ≠ []) :
    0 < ∑ j : Fin l.length, kdeRaw l h j := by
  apply Finset.sum_pos
  · intro j _
    exact kdeRaw_pos l h hl j
  · have : 0 < l.length := List.length_pos.mpr hl
    exact ⟨⟨0, this⟩, Finset.mem_univ _⟩

/-- All the scalar normalisations of the density pipeline cancel: the marginal
fed to `ot.emd` is the kernel-sum vector normalised to total mass one. -/
theorem densityNorm_eq (l : List Pt) (h : ℝ) (hl : l ≠ []) (hh : h ≠ 0)
    (i : Fin l.length) :
    densityNorm l h i = kdeRaw l h i / ∑ j : Fin l.length, kdeRaw l h j := by
  have hn : (0 : ℝ) < l.length := by
    exact_mod_cast List.length_pos.mpr hl
  have hc : (0 : ℝ) < 1 / (l.length * (2 * Real.pi * h ^ 2)) := by
    have hπ : 0 < Real.pi := Real.pi_pos
    have : 0 < h ^ 2 := by positivity
    positivity
  have hsum : 0 < ∑ j : Fin l.length, kdeRaw l h j := sum_kdeRaw_pos l h hl
  set c : ℝ := 1 / (l.length * (2 * Real.pi * h ^ 2)) with hcdef
  have hsk : ∀ j : Fin l.length, skDensity l h j = c * kdeRaw l h j := fun j => rfl
  have hsumsk : ∑ j : Fin l.length, skDensity l h j
      = c * ∑ j : Fin l.length, kdeRaw l h j := by
    rw [Finset.mul_sum]
    exact Finset.sum_congr rfl (fun j _ => hsk j)
  have hcal : ∀ j : Fin l.length,
      calcDensity l h j = kdeRaw l h j * (l.length / ∑ k : Fin l.length, kdeRaw l h k) := by
    intro j
    unfold calcDensity
    rw [hsk j, hsumsk]
    field_simp
    ring
  have hsumcal : ∑ j : Fin l.length, calcDensity l h j = (l.length : ℝ) := by
    have h1 : ∑ j : Fin l.length, calcDensity l h j
        = ∑ j : Fin l.length, kdeRaw l h j * (l.length / ∑ k : Fin l.length, kdeRaw l h k) :=
      Finset.sum_congr rfl (fun j _ => hcal j)
    rw [h1, ← Finset.sum_mul]
    field_simp
  unfold densityNorm
  rw [hsumcal, hcal i]
  field_simp
  ring

theorem densityNorm_nonneg (l : List Pt) (h : ℝ) (i : Fin l.length) :
    0 ≤ densityNorm l h i := by
  have hk : ∀ j : Fin l.length, 0 ≤ kdeRaw l h j := by
    intro j
    unfold kdeRaw
    exact Finset.sum_nonneg (fun k _ => (Real.exp_pos _).le)
  have hc : 0 ≤ 1 / ((l.length : ℝ) * (2 * Real.pi * h ^ 2)) := by
    have hπ : 0 ≤ Real.pi := Real.pi_pos.le
    positivity
  have hsk : ∀ j : Fin l.length, 0 ≤ skDensity l h j :=
    fun j => mul_nonneg hc (hk j)
  have hcal : ∀ j : Fin l.length, 0 ≤ calcDensity l h j := by
    intro j
    apply mul_nonneg (hsk j)
    apply div_nonneg (Nat.cast_nonneg _)
    exact Finset.sum_nonneg (fun k _ => hsk k)
  exact div_nonneg (hcal i) (Finset.sum_nonneg (fun k _ => hcal k))

theorem densityNorm_sum_one (l : List Pt) (h : ℝ) (hl : l ≠ []) (hh : h ≠ 0) :
    ∑ i : Fin l.length, densityNorm l h i = 1 := by
  have hsum : 0 < ∑ j : Fin l.length, kdeRaw l h j := sum_kdeRaw_pos l h hl
  have : ∀ i : Fin l.length,
      densityNorm l h i = kdeRaw l h i / ∑ j : Fin l.length, kdeRaw l h j :=
    densityNorm_eq l h hl hh
  rw [Finset.sum_congr rfl (fun i _ => this i), ← Finset.sum_div]
  field_simp

theorem uniformDist_nonneg (n : ℕ) (i : Fin n) : 0 ≤ uniformDist n i := by
  unfold uniformDist
  positivity

theorem uniformDist_sum_one (n : ℕ) (hn : 0 < n) :
    ∑ i : Fin n, uniformDist n i = 1 := by
  unfold uniformDist
  rw [Finset.sum_const, Finset.card_univ, Fintype.card_fin, nsmul_eq_mul]
  field_simp

/-! ### Exact optimal transport (`ot.emd`, modelled by its contract) -/

/-- Total transported cost `np.sum(transport_matrix * cost_matrix)`
(wasserstein.py lines 96-97). -/
noncomputable def otCost {m n : ℕ} (C T : Fin m → Fin n → ℝ) : ℝ :=
  ∑ i : Fin m, ∑ j : Fin n, T i j * C i j

/-- A transport plan with marginals `μ` (rows) and `ν` (columns). -/
def isCoupling {m n : ℕ} (μ : Fin m → ℝ) (ν : Fin n → ℝ) (T : Fin m → Fin n → ℝ) : Prop :=
  (∀ i j, 0 ≤ T i j) ∧ (∀ i, ∑ j : Fin n, T i j = μ i) ∧ (∀ j, ∑ i : Fin m, T i j = ν j)

/-- Modelled from the spec: the external solver `ot.emd` computes exact optimal
transport, returning a plan with the prescribed marginals that minimises the
total transported cost. -/
def isOptimalPlan {m n : ℕ} (μ : Fin m → ℝ) (ν : Fin n → ℝ)
    (C T : Fin m → Fin n → ℝ) : Prop :=
  isCoupling μ ν T ∧ ∀ S, isCoupling μ ν S → otCost C T ≤ otCost C S

/-- Transposing a coupling swaps its marginals. -/
theorem isCoupling_transpose {m n : ℕ} (μ : Fin m → ℝ) (ν : Fin n → ℝ)
    (T : Fin m → Fin n → ℝ) (hT : isCoupling μ ν T) :
    isCoupling ν μ (fun j i => T i j) := by
  obtain ⟨hpos, hrow, hcol⟩ := hT
  exact ⟨fun j i => hpos i j, hcol, hrow⟩

/-- Transposing preserves the transported cost against the transposed matrix. -/
theorem otCost_transpose {m n : ℕ} (C T : Fin m → Fin n → ℝ) :
    otCost (fun j i => C i j) (fun j i => T i j) = otCost C T := by
  unfold otCost
  rw [Finset.sum_comm]

/-- The transpose of an optimal plan is optimal for the swapped problem with
the transposed cost matrix, at the same optimal value. -/
theorem isOptimalPlan_transpose {m n : ℕ} (μ : Fin m → ℝ) (ν : Fin n → ℝ)
    (C T : Fin m → Fin n → ℝ) (hT : isOptimalPlan μ ν C T) :
    isOptimalPlan ν μ (fun j i => C i j) (fun j i => T i j) := by
  obtain ⟨hc, hopt⟩ := hT
  refine ⟨isCoupling_transpose μ ν T hc, ?_⟩
  intro S hS
  have hS' : isCoupling μ ν (fun i j => S j i) := isCoupling_transpose ν μ S hS
  have := hopt _ hS'
  rw [otCost_transpose]
  calc otCost C T ≤ otCost C (fun i j => S j i) := this
    _ = otCost (fun j i => C i j) S := (otCost_transpose C (fun i j => S j i)).symm

/-- Any two optimal plans have the same transported cost. -/
theorem otCost_eq_of_optimal {m n : ℕ} (μ : Fin m → ℝ) (ν : Fin n → ℝ)
    (C T T' : Fin m → Fin n → ℝ) (hT : isOptimalPlan μ ν C T)
    (hT' : isOptimalPlan μ ν C T') : otCost C T = otCost C T' :=
  le_antisymm (hT.2 T' hT'.1) (hT'.2 T hT.1)

/-- With a single source point of mass one, the only coupling sends mass `ν j`
to column `j`; that plan is therefore optimal. -/
theorem singletonRow_optimal {n : ℕ} (ν : Fin n → ℝ) (C : Fin 1 → Fin n → ℝ)
    (hν : ∀ j, 0 ≤ ν j) (hsum : ∑ j : Fin n, ν j = 1) :
    isOptimalPlan (fun _ => 1) ν C (fun _ j => ν j) := by
  constructor
  · refine ⟨fun _ j => hν j, fun i => hsum, fun j => ?_⟩
    rw [Fin.sum_univ_one]
  · intro S hS
    have hSval : ∀ j, S 0 j = ν j := by
      intro j
      have := hS.2.2 j
      rwa [Fin.sum_univ_one] at this
    unfold otCost
    rw [Fin.sum_univ_one, Fin.sum_univ_one]
    apply le_of_eq
    exact Finset.sum_congr rfl (fun j _ => by rw [hSval j])

/-- With a single target point of mass one, the only coupling sends mass `μ i`
from row `i`; that plan is therefore optimal. -/
theorem singletonCol_optimal {m : ℕ} (μ : Fin m → ℝ) (C : Fin m → Fin 1 → ℝ)
    (hμ : ∀ i, 0 ≤ μ i) (hsum : ∑ i : Fin m, μ i = 1) :
    isOptimalPlan μ (fun _ => 1) C (fun i _ => μ i) := by
  constructor
  · refine ⟨fun i _ => hμ i, fun i => ?_, fun j => hsum⟩
    rw [Fin.sum_univ_one]
  · intro S hS
    have hSval : ∀ i, S i 0 = μ i := by
      intro i
      have := hS.2.1 i
      rwa [Fin.sum_univ_one] at this
    unfold otCost
    apply le_of_eq
    refine Finset.sum_congr rfl (fun i _ => ?_)
    rw [Fin.sum_univ_one, Fin.sum_univ_one, hSval i]

/-- The diagonal plan built from a marginal `μ` couples `μ` with itself. -/
theorem diag_isCoupling {n : ℕ} (μ : Fin n → ℝ) (hμ : ∀ i, 0 ≤ μ i) :
    isCoupling μ μ (fun i j => if i = j then μ i else 0) := by
  refine ⟨fun i j => ?_, fun i => ?_, fun j => ?_⟩
  · by_cases h : i = j
    · subst h
      simp [hμ i]
    · simp [h]
  · simp
  · rw [Finset.sum_eq_single j]
    · simp
    · intro i _ hij
      simp [hij]
    · intro hj
      exact absurd (Finset.mem_univ j) hj

/-- Against a cost matrix with zero diagonal, the diagonal plan has zero cost. -/
theorem diag_otCost_zero {n : ℕ} (μ : Fin n → ℝ) (C : Fin n → Fin n → ℝ)
    (hC : ∀ i, C i i = 0) :
    otCost C (fun i j => if i = j then μ i else 0) = 0 := by
  unfold otCost
  apply Finset.sum_eq_zero
  intro i _
  apply Finset.sum_eq_zero
  intro j _
  by_cases h : i = j
  · subst h
    simp [hC i]
  · simp [h]

/-- Any plan with nonnegative entries has nonnegative cost against a
nonnegative cost matrix. -/
theorem otCost_nonneg {m n : ℕ} (C T : Fin m → Fin n → ℝ)
    (hC : ∀ i j, 0 ≤ C i j) (hT : ∀ i j, 0 ≤ T i j) : 0 ≤ otCost C T := by
  unfold otCost
  apply Finset.sum_nonneg
  intro i _
  apply Finset.sum_nonneg
  intro j _
  exact mul_nonneg (hT i j) (hC i j)

/-! ### Rational-arithmetic part of `VoronoiAnalyzer`: circumcenters
(`_calculate_circumcenter`, voronoi.py lines 257-274) -/

/-- In-plane point with exact rational coordinates. -/
abbrev PtQ : Type := ℚ × ℚ

/-- `np.mean(triangle, axis=0)`: the centroid of a triangle. -/
def centroid3 (a b c : PtQ) : PtQ :=
  ((a.1 + b.1 + c.1) / 3, (a.2 + b.2 + c.2) / 3)

/-- The doubled signed-area determinant of `_calculate_circumcenter`. -/
def circumDet (a b c : PtQ) : ℚ :=
  2 * (a.1 * (b.2 - c.2) + b.1 * (c.2 - a.2) + c.1 * (a.2 - b.2))

/-- `VoronoiAnalyzer._calculate_circumcenter`: closed-form 2-D circumcenter
with the centroid fallback when `|d| < 1e-10`. -/
def calculate_circumcenter (a b c : PtQ) : PtQ :=
  if |circumDet a b c| < 1 / 10 ^ 10 then centroid3 a b c
  else
    (((a.1 ^ 2 + a.2 ^ 2) * (b.2 - c.2) + (b.1 ^ 2 + b.2 ^ 2) * (c.2 - a.2)
        + (c.1 ^ 2 + c.2 ^ 2) * (a.2 - b.2)) / circumDet a b c,
     ((a.1 ^ 2 + a.2 ^ 2) * (c.1 - b.1) + (b.1 ^ 2 + b.2 ^ 2) * (a.1 - c.1)
        + (c.1 ^ 2 + c.2 ^ 2) * (b.1 - a.1)) / circumDet a b c)

/-- Exact squared Euclidean distance between rational points. -/
def sqDistQ (p q : PtQ) : ℚ := (p.1 - q.1) ^ 2 + (p.2 - q.2) ^ 2

/-! ### The cell-to-cell remap of `VoronoiAnalyzer._map_to_cell`
(voronoi.py lines 313-345): matching step -/

/-- The pairwise-distance matrix `cdist(original_vertices_centered,
target_vertices_centered)` of voronoi.py lines 323-326: the source list is
shifted by the difference of the two pivots
(`original_vertices - (original_center - target_center)`), the target list is
centered at its own pivot (`target_vertices - target_center`). -/
noncomputable def mapToCellCostMatrix (orig tgt : List Pt) (cO cT : Pt) :
    Fin orig.length → Fin tgt.length → ℝ :=
  fun i j => ptNorm ((orig.get i - (cO - cT)) - (tgt.get j - cT))

/-- Modelled from the spec: the cost matrix claim C2 describes — Euclidean
distances after both vertex lists have been brought into the same frame, each
centered at its own local pivot. -/
noncomputable def claimedCostMatrix (orig tgt : List Pt) (cO cT : Pt) :
    Fin orig.length → Fin tgt.length → ℝ :=
  fun i j => ptNorm ((orig.get i - cO) - (tgt.get j - cT))

/-- Modelled from the spec: `scipy.optimize.linear_sum_assignment` returns an
assignment of rows to columns minimising the total cost. -/
def isMinAssignment {n : ℕ} (C : Fin n → Fin n → ℝ) (σ : Equiv.Perm (Fin n)) : Prop :=
  ∀ τ : Equiv.Perm (Fin n), ∑ i : Fin n, C i (σ i) ≤ ∑ i : Fin n, C i (τ i)

/-! ### The per-query-point loop of `interpolate_displacements`
(voronoi.py lines 159-250).  The body of the loop — sub-steps (a)-(g), built
on the external Delaunay triangulation and RBF interpolator — is abstracted
as a function `step` from a query point to an optional pair (pristine-frame
point, unrelaxed-frame point); `none` models a caught per-point exception. -/

/-- The two accumulator lists `interpolated_pristine` / `interpolated_unrelaxed`
collected by the loop: the body either appends to both or to neither. -/
def processQueries (step : Pt → Option (Pt × Pt)) (qs : List Pt) :
    List Pt × List Pt :=
  (qs.filterMap (fun q => (step q).map Prod.fst),
   qs.filterMap (fun q => (step q).map Prod.snd))

/-- `VoronoiAnalyzer.interpolate_displacements` from the loop on: per-point
skip policy, the `if not interpolated_pristine or not interpolated_unrelaxed`
failure check, and the four-array success value (voronoi.py lines 163-250). -/
def interpolate_displacements (step : Pt → Option (Pt × Pt)) (qs : List Pt)
    (circUnrel circRbf : List Pt) :
    Option (List Pt × List Pt × List Pt × List Pt) :=
  match processQueries step qs with
  | ([], _) => none
  | (_, []) => none
  | (p :: pr, u :: un) => some (p :: pr, u :: un, circUnrel, circRbf)

/-! ### `VoronoiAnalyzer.pad_periodic_image` (voronoi.py lines 52-93),
in exact rational arithmetic -/

/-- Integer scalar multiple of a rational 2-vector. -/
def qsmul (i : ℤ) (p : PtQ) : PtQ := ((i : ℚ) * p.1, (i : ℚ) * p.2)

/-- `np.concatenate((np.arange(0, n + 1), np.arange(-n, 0)))`
(voronoi.py lines 80-81). -/
def iRange (n : ℤ) : List ℤ :=
  (List.range (n.toNat + 1)).map (fun k => Int.ofNat k)
    ++ (List.range n.toNat).map (fun k => -n + Int.ofNat k)

/-- Row `k` of the cell array, as a rational 2-vector. -/
def cellRow (cell : List (List ℚ)) (k : ℕ) : PtQ :=
  ((cell.getD k []).getD 0 0, (cell.getD k []).getD 1 0)

/-- The lattice offsets `i * cell[0] + j * cell[1]` in the flattened meshgrid
order of voronoi.py lines 82-85 (`j` varies in the outer loop). -/
def padOffsets (a1 a2 : PtQ) (n1 n2 : ℤ) : List PtQ :=
  (iRange n2).flatMap (fun jv => (iRange n1).map (fun iv => qsmul iv a1 + qsmul jv a2))

/-- `VoronoiAnalyzer.pad_periodic_image`: validation and the offset-major
output of `padded_pos.reshape(-1, dim)` (voronoi.py lines 71-93). -/
def pad_periodic_image (positions : List PtQ) (cell : List (List ℚ))
    (n1 n2 : ℤ) : Option (List PtQ) :=
  if positions = [] then none
  else if ¬(cell.length = 2 ∧ (cell.getD 0 []).length = 2
      ∧ (cell.getD 1 []).length = 2) then none
  else if n1 < 1 ∨ n2 < 1 then none
  else some ((padOffsets (cellRow cell 0) (cellRow cell 1) n1 n2).flatMap
    (fun o => positions.map (fun p => p + o)))

/-! ### `VoronoiAnalyzer.get_primitive_voronoi_cell` (voronoi.py lines 22-50).
The scipy Voronoi tessellation is external; it is modelled as an oracle that
either returns tessellation data or raises.  The function is a
`@staticmethod`, yet its `except` handler reads `self.logger`, so any
exception from the oracle makes the handler itself raise a `NameError`. -/

/-- Outcome of a python call: a value, or a raised exception (message). -/
inductive PyOutcome (α : Type) where
  | ok : α → PyOutcome α
  | raised : String → PyOutcome α

/-- The fields of a `scipy.spatial.Voronoi` result used by the code. -/
structure VoronoiData where
  vertices : List PtQ
  regions : List (List ℤ)
  pointRegion : List ℕ

/-- The 3×3 integer grid in the flattened meshgrid order of voronoi.py
lines 34-35; index 4 is the central point `(0, 0)`. -/
def latticeGrid : List (ℤ × ℤ) :=
  [(-1, -1), (0, -1), (1, -1), (-1, 0), (0, 0), (1, 0), (-1, 1), (0, 1), (1, 1)]

/-- `points @ lattice_vectors` (voronoi.py line 36). -/
def latticePoints (lv : PtQ × PtQ) : List PtQ :=
  latticeGrid.map (fun ij => qsmul ij.1 lv.1 + qsmul ij.2 lv.2)

/-- `VoronoiAnalyzer.get_primitive_voronoi_cell`, with the external
tessellation as the oracle `vor`.  When the oracle raises, control reaches the
`except` block, whose first statement `self.logger.error(...)` raises a
`NameError` (the method is static, `self` is not bound), so the call raises
instead of returning the documented `None`. -/
def get_primitive_voronoi_cell (vor : List PtQ → PyOutcome VoronoiData)
    (lv : PtQ × PtQ) : PyOutcome (Option (List PtQ)) :=
  match vor (latticePoints lv) with
  | .ok d =>
      if (-1 : ℤ) ∈ d.regions.getD (d.pointRegion.getD 4 0) [] then .ok none
      else .ok (some ((d.regions.getD (d.pointRegion.getD 4 0) []).map
        (fun idx => d.vertices.getD idx.toNat (0, 0))))
  | .raised _ => .raised "NameError: name self is not defined"

/-! ### `_calculate_cost_matrix` with the non-finite guard
(wasserstein.py lines 156-177).  A numpy float is modelled as `Option ℝ`:
`some x` is the finite value `x`, `none` is a non-finite value (NaN or ±inf);
arithmetic on a non-finite operand is non-finite. -/

/-- A numpy float: finite value or non-finite. -/
abbrev FVal : Type := Option ℝ

/-- A point whose coordinates are numpy floats. -/
abbrev FPt : Type := FVal × FVal

/-- Float addition: finite on finite operands, non-finite otherwise. -/
def fadd (x y : FVal) : FVal :=
  match x, y with
  | some a, some b => some (a + b)
  | _, _ => none

/-- Float subtraction. -/
def fsub (x y : FVal) : FVal :=
  match x, y with
  | some a, some b => some (a - b)
  | _, _ => none

/-- Componentwise float addition of 2-vectors. -/
def fptAdd (p q : FPt) : FPt := (fadd p.1 q.1, fadd p.2 q.2)

/-- Componentwise float subtraction of 2-vectors. -/
def fptSub (p q : FPt) : FPt := (fsub p.1 q.1, fsub p.2 q.2)

/-- Integer scalar times a float 2-vector (`i * self.lattice_vectors[0]`). -/
def fsmul (i : ℤ) (p : FPt) : FPt :=
  (p.1.map (fun a => (i : ℝ) * a), p.2.map (fun a => (i : ℝ) * a))

/-- The 25 periodic offsets, on floats (wasserstein.py lines 158-162). -/
def fOffsets (a1 a2 : FPt) : List FPt :=
  range5.flatMap (fun i => range5.map (fun j => fptAdd (fsmul i a1) (fsmul j a2)))

/-- `np.isnan(x) or np.isinf(x)` on a float 2-vector. -/
def fBad (p : FPt) : Bool := p.1.isNone || p.2.isNone

/-- The guard `np.any(np.isnan(diff_periodic)) or np.any(np.isinf(diff_periodic))`
(wasserstein.py line 169). -/
def diffPeriodicBad (a1 a2 : FPt) (A B : List FPt) : Bool :=
  (fOffsets a1 a2).any (fun o => A.any (fun p => B.any (fun q =>
    fBad (fptAdd (fptSub p q) o))))

/-- The finite value of a float (junk default `0` on non-finite inputs,
only used where the guard has ruled those out). -/
def fget (p : FPt) : Pt := (p.1.getD 0, p.2.getD 0)

/-- `WassersteinMetric._calculate_cost_matrix`: raise on any non-finite
periodic difference, otherwise the matrix of minimal periodic-image norms
(on the guarded branch every operand is finite, so the real-valued
`costEntry` built from the extracted finite values is the computed entry). -/
noncomputable def calculate_cost_matrix (a1 a2 : FPt) (A B : List FPt) :
    Except String (Fin A.length → Fin B.length → ℝ) :=
  if diffPeriodicBad a1 a2 A B then .error "Invalid values in periodic differences"
  else .ok (fun i j => costEntry (fget a1) (fget a2) (fget (A.get i)) (fget (B.get j)))

/-! ### Supporting lemmas for `pad_periodic_image` -/

theorem iRange_length (n : ℤ) : (iRange n).length = 2 * n.toNat + 1 := by
  unfold iRange
  rw [List.length_append, List.length_map, List.length_map,
    List.length_range, List.length_range]
  omega

theorem mem_iRange (n : ℤ) (hn : 1 ≤ n) (x : ℤ) :
    x ∈ iRange n ↔ -n ≤ x ∧ x ≤ n := by
  simp only [iRange, List.mem_append, List.mem_map, List.mem_range]
  constructor
  · rintro (⟨k, hk, rfl⟩ | ⟨k, hk, rfl⟩) <;> simp [Int.ofNat_eq_natCast] <;> omega
  · rintro ⟨h1, h2⟩
    rcases le_or_lt 0 x with hx | hx
    · exact Or.inl ⟨x.toNat, by omega, by simp [Int.ofNat_eq_natCast]; omega⟩
    · exact Or.inr ⟨(x + n).toNat, by omega, by simp [Int.ofNat_eq_natCast]; omega⟩

theorem length_flatMap_const {α β : Type} (l : List α) (f : α → List β) (c : ℕ)
    (h : ∀ a ∈ l, (f a).length = c) : (l.flatMap f).length = l.length * c := by
  induction l with
  | nil => simp
  | cons a t ih =>
    rw [List.flatMap_cons, List.length_append, h a (by simp),
      ih (fun x hx => h x (by simp [hx])), List.length_cons]
    ring

theorem padOffsets_length (a1 a2 : PtQ) (n1 n2 : ℤ) :
    (padOffsets a1 a2 n1 n2).length = (2 * n2.toNat + 1) * (2 * n1.toNat + 1) := by
  unfold padOffsets
  rw [length_flatMap_const _ _ (2 * n1.toNat + 1)
    (fun a _ => by rw [List.length_map, iRange_length]), iRange_length]

theorem mem_padOffsets (a1 a2 : PtQ) (n1 n2 : ℤ) (hn1 : 1 ≤ n1) (hn2 : 1 ≤ n2)
    (o : PtQ) : o ∈ padOffsets a1 a2 n1 n2 ↔
      ∃ i j : ℤ, -n1 ≤ i ∧ i ≤ n1 ∧ -n2 ≤ j ∧ j ≤ n2 ∧ o = qsmul i a1 + qsmul j a2 := by
  simp only [padOffsets, List.mem_flatMap, List.mem_map]
  constructor
  · rintro ⟨jv, hj, iv, hi, rfl⟩
    rw [mem_iRange n2 hn2] at hj
    rw [mem_iRange n1 hn1] at hi
    exact ⟨iv, jv, hi.1, hi.2, hj.1, hj.2, rfl⟩
  · rintro ⟨i, j, h1, h2, h3, h4, rfl⟩
    exact ⟨j, (mem_iRange n2 hn2 j).mpr ⟨h3, h4⟩, i, (mem_iRange n1 hn1 i).mpr ⟨h1, h2⟩, rfl⟩

/-- Claim C4: `pad_periodic_image` returns exactly
`|positions|·(2·n1+1)·(2·n2+1)` points; every output point is an input point
translated by `i·a1 + j·a2` with `i ∈ [-n1, n1]`, `j ∈ [-n2, n2]`, every such
combination is produced, and the call fails (returns `none`) on empty input,
a non-2×2 cell, or a non-positive repeat count. -/
theorem claim_C4 (positions : List PtQ) (cell : List (List ℚ)) (n1 n2 : ℤ) :
    (positions = [] → pad_periodic_image positions cell n1 n2 = none)
    ∧ (¬(cell.length = 2 ∧ (cell.getD 0 []).length = 2
        ∧ (cell.getD 1 []).length = 2) → pad_periodic_image positions cell n1 n2 = none)
    ∧ ((n1 < 1 ∨ n2 < 1) → pad_periodic_image positions cell n1 n2 = none)
    ∧ (positions ≠ [] →
       (cell.length = 2 ∧ (cell.getD 0 []).length = 2 ∧ (cell.getD 1 []).length = 2) →
       1 ≤ n1 → 1 ≤ n2 →
       ∃ out, pad_periodic_image positions cell n1 n2 = some out
         ∧ (out.length : ℤ) = positions.length * ((2 * n1 + 1) * (2 * n2 + 1))
         ∧ (∀ p' ∈ out, ∃ p ∈ positions, ∃ i j : ℤ,
              -n1 ≤ i ∧ i ≤ n1 ∧ -n2 ≤ j ∧ j ≤ n2
              ∧ p' = p + (qsmul i (cellRow cell 0) + qsmul j (cellRow cell 1)))
         ∧ (∀ p ∈ positions, ∀ i j : ℤ, -n1 ≤ i → i ≤ n1 → -n2 ≤ j → j ≤ n2 →
              p + (qsmul i (cellRow cell 0) + qsmul j (cellRow cell 1)) ∈ out)) := by
  refine ⟨?_, ?_, ?_, ?_⟩
  · intro h
    simp [pad_periodic_image, h]
  · intro h
    unfold pad_periodic_image
    rcases Classical.em (positions = []) with he | he
    · rw [if_pos he]
    · rw [if_neg he, if_pos h]
  · intro h
    unfold pad_periodic_image
    rcases Classical.em (positions = []) with he | he
    · rw [if_pos he]
    · rcases Classical.em (cell.length = 2 ∧ (cell.getD 0 []).length = 2
        ∧ (cell.getD 1 []).length = 2) with hs | hs
      · rw [if_neg he, if_neg (by simpa using hs), if_pos h]
      · rw [if_neg he, if_pos hs]
  · intro hne hs h1 h2
    refine ⟨(padOffsets (cellRow cell 0) (cellRow cell 1) n1 n2).flatMap
      (fun o => positions.map (fun p => p + o)), ?_, ?_, ?_, ?_⟩
    · unfold pad_periodic_image
      simp only [if_neg hne]
      rw [if_neg (by simpa using hs), if_neg (by omega)]
    · rw [length_flatMap_const _ _ positions.length
        (fun a _ => List.length_map _ _), padOffsets_length]
      push_cast
      have e1 : (n1.toNat : ℤ) = n1 := Int.toNat_of_nonneg (by omega)
      have e2 : (n2.toNat : ℤ) = n2 := Int.toNat_of_nonneg (by omega)
      rw [e1, e2]
      ring
    · intro p' hp'
      rcases List.mem_flatMap.mp hp' with ⟨o, ho, hp'2⟩
      rcases List.mem_map.mp hp'2 with ⟨p, hp, rfl⟩
      rcases (mem_padOffsets _ _ n1 n2 h1 h2 o).mp ho with ⟨i, j, hi1, hi2, hj1, hj2, rfl⟩
      exact ⟨p, hp, i, j, hi1, hi2, hj1, hj2, rfl⟩
    · intro p hp i j hi1 hi2 hj1 hj2
      refine List.mem_flatMap.mpr ⟨qsmul i (cellRow cell 0) + qsmul j (cellRow cell 1),
        (mem_padOffsets _ _ n1 n2 h1 h2 _).mpr ⟨i, j, hi1, hi2, hj1, hj2, rfl⟩,
        List.mem_map.mpr ⟨p, hp, rfl⟩⟩

/-- Witness for claim C4 at a concrete input: one point, the unit square
cell, one repeat in each direction. -/
theorem claim_C4_witness :
    ∃ out, pad_periodic_image [((0 : ℚ), (0 : ℚ))] [[1, 0], [0, 1]] 1 1 = some out
      ∧ (out.length : ℤ) = 1 * ((2 * 1 + 1) * (2 * 1 + 1))
      ∧ (∀ p' ∈ out, ∃ p ∈ [((0 : ℚ), (0 : ℚ))], ∃ i j : ℤ,
           -1 ≤ i ∧ i ≤ 1 ∧ -1 ≤ j ∧ j ≤ 1
           ∧ p' = p + (qsmul i (cellRow [[1, 0], [0, 1]] 0)
               + qsmul j (cellRow [[1, 0], [0, 1]] 1)))
      ∧ (∀ p ∈ [((0 : ℚ), (0 : ℚ))], ∀ i j : ℤ, -1 ≤ i → i ≤ 1 → -1 ≤ j → j ≤ 1 →
           p + (qsmul i (cellRow [[1, 0], [0, 1]] 0)
               + qsmul j (cellRow [[1, 0], [0, 1]] 1)) ∈ out) := by
  have h := (claim_C4 [((0 : ℚ), (0 : ℚ))] [[1, 0], [0, 1]] 1 1).2.2.2
    (by decide) (by decide) (by decide) (by decide)
  simpa using h

/-- Claim C5: `_calculate_circumcenter` returns the triangle's centroid when
the doubled-area determinant has magnitude below `1e-10`, and otherwise
returns the closed-form circumcenter, the point equidistant from all three
vertices. -/
theorem claim_C5 (a b c : PtQ) :
    (|circumDet a b c| < 1 / 10 ^ 10 →
      calculate_circumcenter a b c = centroid3 a b c)
    ∧ (1 / 10 ^ 10 ≤ |circumDet a b c| →
      sqDistQ (calculate_circumcenter a b c) a
          = sqDistQ (calculate_circumcenter a b c) b
      ∧ sqDistQ (calculate_circumcenter a b c) a
          = sqDistQ (calculate_circumcenter a b c) c) := by
  constructor
  · intro h
    unfold calculate_circumcenter
    rw [if_pos h]
  · intro h
    have hd : circumDet a b c ≠ 0 := by
      intro h0
      rw [h0] at h
      norm_num at h
    unfold calculate_circumcenter
    rw [if_neg (not_lt.mpr h)]
    obtain ⟨ax, ay⟩ := a
    obtain ⟨bx, bay⟩ := b
    obtain ⟨cx, cy⟩ := c
    unfold circumDet at hd ⊢
    unfold sqDistQ
    simp only
    constructor <;> field_simp <;> ring

/-- Witness for claim C5: the degenerate branch at a collinear triangle, and
the nondegenerate branch at a right triangle. -/
theorem claim_C5_witness :
    (calculate_circumcenter ((0 : ℚ), 0) (1, 0) (2, 0)
        = centroid3 ((0 : ℚ), 0) (1, 0) (2, 0))
    ∧ (sqDistQ (calculate_circumcenter ((0 : ℚ), 0) (1, 0) (0, 1)) ((0 : ℚ), 0)
          = sqDistQ (calculate_circumcenter ((0 : ℚ), 0) (1, 0) (0, 1)) (1, 0)
      ∧ sqDistQ (calculate_circumcenter ((0 : ℚ), 0) (1, 0) (0, 1)) ((0 : ℚ), 0)
          = sqDistQ (calculate_circumcenter ((0 : ℚ), 0) (1, 0) (0, 1)) (0, 1)) :=
  ⟨(claim_C5 ((0 : ℚ), 0) (1, 0) (2, 0)).1 (by norm_num [circumDet]),
   (claim_C5 ((0 : ℚ), 0) (1, 0) (0, 1)).2 (by norm_num [circumDet])⟩

theorem length_filterMap_eq_countP {α β : Type} (f : α → Option β) (l : List α) :
    (l.filterMap f).length = l.countP (fun a => (f a).isSome) := by
  induction l with
  | nil => simp
  | cons a t ih =>
    cases h : f a <;> simp [List.filterMap_cons, h, List.countP_cons, ih]

theorem interpolate_eq_match (step : Pt → Option (Pt × Pt)) (qs : List Pt)
    (cU cR : List Pt) :
    interpolate_displacements step qs cU cR
      = match processQueries step qs with
        | ([], _) => none
        | (_, []) => none
        | (p :: pr, u :: un) => some (p :: pr, u :: un, cU, cR) := rfl

/-- Claim C3: in `interpolate_displacements`, a failing query point is skipped
and the remaining ones are still processed; the call returns the error value
iff zero query points succeeded; on success, the first dimensions of the two
returned point arrays equal the number of query points that succeeded, which
is at most the number supplied. -/
theorem claim_C3 (step : Pt → Option (Pt × Pt)) (qs qs1 qs2 : List Pt)
    (q : Pt) (cU cR : List Pt) :
    (step q = none →
      interpolate_displacements step (qs1 ++ q :: qs2) cU cR
        = interpolate_displacements step (qs1 ++ qs2) cU cR)
    ∧ (interpolate_displacements step qs cU cR = none ↔ ∀ x ∈ qs, step x = none)
    ∧ (∀ pr un cU' cR',
        interpolate_displacements step qs cU cR = some (pr, un, cU', cR') →
        pr.length = qs.countP (fun x => (step x).isSome)
        ∧ un.length = pr.length ∧ pr.length ≤ qs.length ∧ cU' = cU ∧ cR' = cR) := by
  refine ⟨?_, ?_, ?_⟩
  · intro hq
    unfold interpolate_displacements processQueries
    rw [List.filterMap_append, List.filterMap_append,
      List.filterMap_append, List.filterMap_append]
    simp [List.filterMap_cons, hq]
  · unfold interpolate_displacements processQueries
    constructor
    · intro h
      intro x hx
      rcases h1 : qs.filterMap (fun r => (step r).map Prod.fst) with _ | ⟨p, pr⟩
      · have := List.filterMap_eq_nil_iff.mp h1 x hx
        cases hs : step x
        · rfl
        · rw [hs] at this
          simp at this
      · rcases h2 : qs.filterMap (fun r => (step r).map Prod.snd) with _ | ⟨u, un⟩
        · have := List.filterMap_eq_nil_iff.mp h2 x hx
          cases hs : step x
          · rfl
          · rw [hs] at this
            simp at this
        · rw [h1, h2] at h
          simp at h
    · intro h
      have h1 : qs.filterMap (fun r => (step r).map Prod.fst) = [] :=
        List.filterMap_eq_nil_iff.mpr (fun x hx => by rw [h x hx]; rfl)
      have h2 : qs.filterMap (fun r => (step r).map Prod.snd) = [] :=
        List.filterMap_eq_nil_iff.mpr (fun x hx => by rw [h x hx]; rfl)
      rw [h1, h2]
  · intro pr un cU' cR' h
    unfold interpolate_displacements processQueries at h
    rcases h1 : qs.filterMap (fun r => (step r).map Prod.fst) with _ | ⟨p, pr'⟩
    · rw [h1] at h
      simp at h
    · rcases h2 : qs.filterMap (fun r => (step r).map Prod.snd) with _ | ⟨u, un'⟩
      · rw [h1, h2] at h
        simp at h
      · rw [h1, h2] at h
        simp only [Option.some.injEq, Prod.mk.injEq] at h
        obtain ⟨hpr, hun, hcU, hcR⟩ := h
        have lenfst : (p :: pr').length = qs.countP (fun x => (step x).isSome) := by
          rw [← h1, length_filterMap_eq_countP]
          exact List.countP_congr (fun x _ => by cases step x <;> simp)
        have lensnd : (u :: un').length = qs.countP (fun x => (step x).isSome) := by
          rw [← h2, length_filterMap_eq_countP]
          exact List.countP_congr (fun x _ => by cases step x <;> simp)
        refine ⟨?_, ?_, ?_, hcU.symm, hcR.symm⟩
        · rw [← hpr, lenfst]
        · rw [← hpr, ← hun, lenfst, lensnd]
        · rw [← hpr, lenfst]
          exact qs.countP_le_length _

/-- Witness for claim C3: the skip branch with an always-failing step, and the
success branch with an always-succeeding step on one query point. -/
theorem claim_C3_witness :
    (interpolate_displacements (fun _ => (none : Option (Pt × Pt)))
        ([] ++ ((0 : ℝ), (0 : ℝ)) :: []) [] []
      = interpolate_displacements (fun _ => none) ([] ++ []) [] [])
    ∧ ([((0 : ℝ), (0 : ℝ))].length
        = List.countP (fun x : Pt => ((fun p : Pt => some (p, p)) x).isSome)
            [((0 : ℝ), (0 : ℝ))]) :=
  ⟨(claim_C3 (fun _ => none) [] [] [] ((0 : ℝ), (0 : ℝ)) [] []).1 rfl,
   ((claim_C3 (fun p : Pt => some (p, p)) [((0 : ℝ), (0 : ℝ))] [] []
      ((0 : ℝ), (0 : ℝ)) [] []).2.2 [((0 : ℝ), (0 : ℝ))] [((0 : ℝ), (0 : ℝ))]
      [] [] rfl).1⟩

/-- Claim C9, evaluated at the failure path: whenever the external
tessellation raises (degenerate/near-singular lattice), the code reaches its
`except` handler, whose reference to `self.logger` in a `@staticmethod` makes
the call raise a `NameError` — it does not return the error value `None`
promised by the claim and by the function's own docstring. -/
theorem claim_C9 (vor : List PtQ → PyOutcome VoronoiData) (lv : PtQ × PtQ)
    (msg : String) (hv : vor (latticePoints lv) = .raised msg) :
    get_primitive_voronoi_cell vor lv
      = .raised "NameError: name self is not defined"
    ∧ ∀ res : Option (List PtQ), get_primitive_voronoi_cell vor lv ≠ .ok res := by
  unfold get_primitive_voronoi_cell
  rw [hv]
  exact ⟨rfl, fun res h => by cases h⟩

/-- Witness for claim C9 at the concrete failing input: the degenerate
(collinear) lattice `[[1, 0], [2, 0]]`, whose 9 lattice points are collinear,
so the tessellation oracle raises. -/
theorem claim_C9_witness :
    get_primitive_voronoi_cell
      (fun _ => .raised "QhullError: input is less than 2-dimensional")
      (((1 : ℚ), (0 : ℚ)), ((2 : ℚ), (0 : ℚ)))
      = .raised "NameError: name self is not defined" :=
  (claim_C9 (fun _ => .raised "QhullError: input is less than 2-dimensional")
    (((1 : ℚ), (0 : ℚ)), ((2 : ℚ), (0 : ℚ))) _ rfl).1

/-- Claim C8: on the guarded branch every entry of the cost matrix is the
minimum Euclidean distance over the 25 periodic images
`pA - pB + i·a1 + j·a2`, `i, j ∈ [-2, 2]` (it is a lower bound of all 25 and
attained at one); an entry whose points differ by exactly `a1` is zero; and
the computation fails with the `TransportError` message when some periodic
difference is non-finite. -/
theorem claim_C8 (a1 a2 : FPt) (A B : List FPt) :
    (diffPeriodicBad a1 a2 A B = false →
      ∃ M, calculate_cost_matrix a1 a2 A B = .ok M
        ∧ (∀ (i : Fin A.length) (j : Fin B.length),
            (∀ i' ∈ range5, ∀ j' ∈ range5,
              M i j ≤ ptNorm (fget (A.get i) - fget (B.get j)
                + (ismul i' (fget a1) + ismul j' (fget a2))))
            ∧ (∃ i' ∈ range5, ∃ j' ∈ range5,
              M i j = ptNorm (fget (A.get i) - fget (B.get j)
                + (ismul i' (fget a1) + ismul j' (fget a2)))))
        ∧ (∀ (i : Fin A.length) (j : Fin B.length),
            fget (A.get i) - fget (B.get j) = fget a1 → M i j = 0))
    ∧ ((∃ o ∈ fOffsets a1 a2, ∃ p ∈ A, ∃ q ∈ B,
          fBad (fptAdd (fptSub p q) o) = true) →
        calculate_cost_matrix a1 a2 A B
          = .error "Invalid values in periodic differences") := by
  constructor
  · intro hgood
    refine ⟨fun i j => costEntry (fget a1) (fget a2) (fget (A.get i)) (fget (B.get j)),
      ?_, ?_, ?_⟩
    · unfold calculate_cost_matrix
      rw [if_neg (by rw [hgood]; exact Bool.false_ne_true)]
    · intro i j
      exact ⟨fun i' hi' j' hj' => costEntry_le _ _ _ _ i' j' hi' hj',
        costEntry_attained _ _ _ _⟩
    · intro i j hdiff
      apply le_antisymm
      · have h := costEntry_le (fget a1) (fget a2) (fget (A.get i)) (fget (B.get j))
          (-1) 0 (by simp [range5]) (by simp [range5])
        have e : fget (A.get i) - fget (B.get j)
            + (ismul (-1) (fget a1) + ismul 0 (fget a2)) = ((0 : ℝ), (0 : ℝ)) := by
          rw [hdiff]
          simp only [ismul, Prod.ext_iff, Prod.fst_add, Prod.snd_add]
          constructor <;> push_cast <;> ring
        rw [e] at h
        simpa [ptNorm, sqnorm] using h
      · exact costEntry_nonneg _ _ _ _
  · intro hbad
    have : diffPeriodicBad a1 a2 A B = true := by
      unfold diffPeriodicBad
      rw [List.any_eq_true]
      rcases hbad with ⟨o, ho, p, hp, q, hq, h⟩
      exact ⟨o, ho, by
        rw [List.any_eq_true]
        exact ⟨p, hp, by
          rw [List.any_eq_true]
          exact ⟨q, hq, h⟩⟩⟩
    unfold calculate_cost_matrix
    rw [if_pos this]

/-- Witness for claim C8: a unit-square lattice with one point in each list
differing by exactly `a1`, all values finite, giving cost-matrix entry 0; and
a non-finite first lattice coordinate forcing the error. -/
theorem claim_C8_witness :
    (∃ M, calculate_cost_matrix ((some 1 : FVal), (some 0 : FVal))
        ((some 0 : FVal), (some 1 : FVal)) [((some 1 : FVal), (some 0 : FVal))]
        [((some 0 : FVal), (some 0 : FVal))] = .ok M
        ∧ M ⟨0, by simp⟩ ⟨0, by simp⟩ = 0)
    ∧ calculate_cost_matrix ((none : FVal), (some 0 : FVal))
        ((some 0 : FVal), (some 1 : FVal)) [((some 1 : FVal), (some 0 : FVal))]
        [((some 0 : FVal), (some 0 : FVal))]
        = .error "Invalid values in periodic differences" := by
  constructor
  · obtain ⟨M, hM, _, hzero⟩ :=
      ((claim_C8 ((some 1 : FVal), (some 0 : FVal)) ((some 0 : FVal), (some 1 : FVal))
        [((some 1 : FVal), (some 0 : FVal))] [((some 0 : FVal), (some 0 : FVal))]).1
        (by rfl))
    refine ⟨M, hM, hzero ⟨0, by simp⟩ ⟨0, by simp⟩ ?_⟩
    simp only [fget, List.get]
    simp [Prod.ext_iff]
  · apply (claim_C8 ((none : FVal), (some 0 : FVal)) ((some 0 : FVal), (some 1 : FVal))
      [((some 1 : FVal), (some 0 : FVal))] [((some 0 : FVal), (some 0 : FVal))]).2
    refine ⟨fptAdd (fsmul 1 ((none : FVal), (some 0 : FVal)))
        (fsmul 0 ((some 0 : FVal), (some 1 : FVal))), ?_, _, List.mem_singleton.mpr rfl,
        _, List.mem_singleton.mpr rfl, rfl⟩
    unfold fOffsets
    refine List.mem_flatMap.mpr ⟨1, by simp [range5], List.mem_map.mpr ⟨0, by simp [range5], rfl⟩⟩

/-! ### Claims about `calculate_distance` (wasserstein.py lines 32-99) -/

theorem otCost_optimal_diag_zero {n : ℕ} (μ : Fin n → ℝ) (C : Fin n → Fin n → ℝ)
    (hμ : ∀ i, 0 ≤ μ i) (hC0 : ∀ i, C i i = 0) (hC : ∀ i j, 0 ≤ C i j)
    (T : Fin n → Fin n → ℝ) (hT : isOptimalPlan μ μ C T) : otCost C T = 0 := by
  apply le_antisymm
  · have h := hT.2 _ (diag_isCoupling μ hμ)
    rwa [diag_otCost_zero μ C hC0] at h
  · exact otCost_nonneg C T hC hT.1.1

/-- A singleton point list used to instantiate the transport claims. -/
noncomputable def w0 : List Pt := [((0 : ℝ), (0 : ℝ))]

theorem one_plan_optimal (C : Fin 1 → Fin 1 → ℝ) :
    isOptimalPlan (fun _ => 1) (fun _ => 1) C (fun _ _ => 1) :=
  singletonRow_optimal (fun _ => 1) C (fun _ => one_pos.le) (by simp)

theorem densityNorm_w0 (h : ℝ) (hh : h ≠ 0) :
    densityNorm w0 h = fun _ => 1 := by
  funext i
  rw [densityNorm_eq w0 h (by simp [w0]) hh i]
  have h1 : ∑ j : Fin w0.length, kdeRaw w0 h j = kdeRaw w0 h ⟨0, by simp [w0]⟩ :=
    Fin.sum_univ_one _
  have hlen : w0.length = 1 := rfl
  have hi : (i : ℕ) < 1 := lt_of_lt_of_le i.isLt (le_of_eq hlen)
  have h2 : i = ⟨0, by simp [w0]⟩ := Fin.ext (by
    show (i : ℕ) = 0
    omega)
  rw [h1, h2]
  have hpos := kdeRaw_pos w0 h (by simp [w0]) ⟨0, by simp [w0]⟩
  exact div_self (ne_of_gt hpos)

theorem uniformDist_w0 : uniformDist w0.length = fun _ => 1 := by
  funext i
  unfold uniformDist
  norm_num [w0]

theorem w0_plan_density (a1 a2 : Pt) (h : ℝ) (hh : h ≠ 0) :
    isOptimalPlan (densityNorm w0 h) (densityNorm w0 h)
      (costMatrix a1 a2 w0 w0) (fun _ _ => 1) := by
  rw [densityNorm_w0 h hh]
  exact one_plan_optimal _

theorem w0_plan_uniform (a1 a2 : Pt) :
    isOptimalPlan (uniformDist w0.length) (uniformDist w0.length)
      (costMatrix a1 a2 w0 w0) (fun _ _ => 1) := by
  rw [uniformDist_w0]
  exact one_plan_optimal _

/-- Claim C6: each transport plan produced by `calculate_distance` is
entrywise nonnegative with row sums the source distribution and column sums
the target distribution; the density-weighted plan's marginals are the
normalised KDE vectors (probability vectors summing to one), the uniform
plan's marginals are the uniform `1/N` vectors. -/
theorem claim_C6 (a1 a2 : Pt) (A B : List Pt) (bw : ℝ) (hA : A ≠ []) (hB : B ≠ [])
    (hbw : bw ≠ 0) (T U : Fin A.length → Fin B.length → ℝ)
    (hT : isOptimalPlan (densityNorm A bw) (densityNorm B bw)
      (costMatrix a1 a2 A B) T)
    (hU : isOptimalPlan (uniformDist A.length) (uniformDist B.length)
      (costMatrix a1 a2 A B) U) :
    (∀ i j, 0 ≤ T i j)
    ∧ (∀ i, ∑ j : Fin B.length, T i j = densityNorm A bw i)
    ∧ (∀ j, ∑ i : Fin A.length, T i j = densityNorm B bw j)
    ∧ (∀ i, densityNorm A bw i
        = kdeRaw A bw i / ∑ k : Fin A.length, kdeRaw A bw k)
    ∧ (∀ j, densityNorm B bw j
        = kdeRaw B bw j / ∑ k : Fin B.length, kdeRaw B bw k)
    ∧ (∑ i : Fin A.length, densityNorm A bw i = 1)
    ∧ (∑ j : Fin B.length, densityNorm B bw j = 1)
    ∧ (∀ i j, 0 ≤ U i j)
    ∧ (∀ i, ∑ j : Fin B.length, U i j = uniformDist A.length i)
    ∧ (∀ j, ∑ i : Fin A.length, U i j = uniformDist B.length j) :=
  ⟨hT.1.1, hT.1.2.1, hT.1.2.2, densityNorm_eq A bw hA hbw,
    densityNorm_eq B bw hB hbw, densityNorm_sum_one A bw hA hbw,
    densityNorm_sum_one B bw hB hbw, hU.1.1, hU.1.2.1, hU.1.2.2⟩

/-- Witness for claim C6 on a singleton pair. -/
theorem claim_C6_witness :
    ∑ i : Fin w0.length, densityNorm w0 1 i = 1 :=
  (claim_C6 (1, 0) (0, 1) w0 w0 1 (by simp [w0]) (by simp [w0]) one_ne_zero
    (fun _ _ => 1) (fun _ _ => 1) (w0_plan_density (1, 0) (0, 1) 1 one_ne_zero)
    (w0_plan_uniform (1, 0) (0, 1))).2.2.2.2.2.1

/-- Claim C7: on identical input sets, both the density-weighted and the
uniform transported cost are zero, for any bandwidth. -/
theorem claim_C7 (a1 a2 : Pt) (S : List Pt) (bw : ℝ)
    (T U : Fin S.length → Fin S.length → ℝ)
    (hT : isOptimalPlan (densityNorm S bw) (densityNorm S bw)
      (costMatrix a1 a2 S S) T)
    (hU : isOptimalPlan (uniformDist S.length) (uniformDist S.length)
      (costMatrix a1 a2 S S) U) :
    otCost (costMatrix a1 a2 S S) T = 0
    ∧ otCost (costMatrix a1 a2 S S) U = 0 := by
  have hC0 : ∀ i : Fin S.length, costMatrix a1 a2 S S i i = 0 :=
    fun i => costEntry_self a1 a2 (S.get i)
  have hC : ∀ (i j : Fin S.length), 0 ≤ costMatrix a1 a2 S S i j :=
    fun i j => costEntry_nonneg a1 a2 _ _
  exact ⟨otCost_optimal_diag_zero _ _ (densityNorm_nonneg S bw) hC0 hC T hT,
    otCost_optimal_diag_zero _ _ (uniformDist_nonneg S.length) hC0 hC U hU⟩

/-- Witness for claim C7 on a singleton set. -/
theorem claim_C7_witness :
    otCost (costMatrix (1, 0) (0, 1) w0 w0) (fun _ _ => 1) = 0 :=
  (claim_C7 (1, 0) (0, 1) w0 1 (fun _ _ => 1) (fun _ _ => 1)
    (w0_plan_density (1, 0) (0, 1) 1 one_ne_zero) (w0_plan_uniform (1, 0) (0, 1))).1

/-- Claim C10: every cost-matrix entry is a Euclidean norm and hence
nonnegative, every plan entry is nonnegative, so each returned distance — the
sum of their elementwise products — is nonnegative, for either variant's
marginals. -/
theorem claim_C10 (a1 a2 : Pt) (A B : List Pt) (μ : Fin A.length → ℝ)
    (ν : Fin B.length → ℝ) (T : Fin A.length → Fin B.length → ℝ)
    (hT : isOptimalPlan μ ν (costMatrix a1 a2 A B) T) :
    0 ≤ otCost (costMatrix a1 a2 A B) T :=
  otCost_nonneg _ T (fun _ _ => costEntry_nonneg a1 a2 _ _) hT.1.1

/-- Witness for claim C10 on a singleton pair with the uniform marginals. -/
theorem claim_C10_witness :
    0 ≤ otCost (costMatrix (1, 0) (0, 1) w0 w0) (fun _ _ => 1) :=
  claim_C10 (1, 0) (0, 1) w0 w0 (uniformDist w0.length) (uniformDist w0.length)
    (fun _ _ => 1) (w0_plan_uniform (1, 0) (0, 1))

/-! ### Claim C1: symmetry of `calculate_distance` under swapping arguments -/

/-- The three-point list of the counterexample: two coincident displacement
vectors at the origin and one at the cell centre. -/
noncomputable def dB0 : List Pt :=
  [((0 : ℝ), (0 : ℝ)), ((0 : ℝ), (0 : ℝ)), ((1 / 2 : ℝ), (1 / 2 : ℝ))]

theorem int_half_sq (i : ℤ) : (1 / 4 : ℝ) ≤ ((i : ℝ) - 1 / 2) ^ 2 := by
  rcases le_or_lt 1 i with h | h
  · have h' : (1 : ℝ) ≤ (i : ℝ) := by exact_mod_cast h
    nlinarith
  · have h' : (i : ℝ) ≤ 0 := by exact_mod_cast (by omega : i ≤ 0)
    nlinarith

theorem costEntry_half :
    costEntry (1, 0) (0, 1) ((0 : ℝ), (0 : ℝ)) ((1 / 2 : ℝ), (1 / 2 : ℝ))
      = Real.sqrt (1 / 2) := by
  apply le_antisymm
  · have h := costEntry_le (1, 0) (0, 1) ((0 : ℝ), (0 : ℝ)) ((1 / 2 : ℝ), (1 / 2 : ℝ))
      0 0 (by simp [range5]) (by simp [range5])
    have e : ((0 : ℝ), (0 : ℝ)) - ((1 / 2 : ℝ), (1 / 2 : ℝ))
        + (ismul 0 (1, 0) + ismul 0 (0, 1)) = ((-(1 / 2) : ℝ), (-(1 / 2) : ℝ)) := by
      simp only [ismul, Prod.ext_iff, Prod.fst_add, Prod.snd_add, Prod.fst_sub,
        Prod.snd_sub, Int.cast_zero]
      norm_num
    rw [e] at h
    have e2 : ptNorm ((-(1 / 2) : ℝ), (-(1 / 2) : ℝ)) = Real.sqrt (1 / 2) := by
      unfold ptNorm sqnorm
      norm_num
    rwa [e2] at h
  · apply le_costEntry
    intro i _ j _
    have e : ((0 : ℝ), (0 : ℝ)) - ((1 / 2 : ℝ), (1 / 2 : ℝ))
        + (ismul i (1, 0) + ismul j (0, 1))
        = (((i : ℝ) - 1 / 2), ((j : ℝ) - 1 / 2)) := by
      simp only [ismul, Prod.ext_iff, Prod.fst_add, Prod.snd_add, Prod.fst_sub,
        Prod.snd_sub]
      constructor <;> ring
    rw [e]
    unfold ptNorm sqnorm
    apply Real.sqrt_le_sqrt
    have h1 := int_half_sq i
    have h2 := int_half_sq j
    simp only
    nlinarith

theorem ptNorm_e1 : ptNorm ((1 : ℝ), (0 : ℝ)) = 1 := by
  unfold ptNorm sqnorm
  norm_num

theorem defaultBandwidth_w0 : defaultBandwidth (1, 0) w0 = 1 / 2 := by
  unfold defaultBandwidth
  rw [ptNorm_e1]
  have e : (4 : ℝ) * (w0.length : ℝ) = 2 ^ 2 := by
    norm_num [w0]
  rw [e, Real.sqrt_sq (by norm_num : (0 : ℝ) ≤ 2)]

theorem defaultBandwidth_dB0 : defaultBandwidth (1, 0) dB0 = 1 / Real.sqrt 12 := by
  unfold defaultBandwidth
  rw [ptNorm_e1]
  have e : (4 : ℝ) * (dB0.length : ℝ) = 12 := by
    norm_num [dB0]
  rw [e]

theorem sqrt12_pos : 0 < Real.sqrt 12 := Real.sqrt_pos.mpr (by norm_num)

theorem defaultBandwidth_dB0_ne : defaultBandwidth (1, 0) dB0 ≠ 0 := by
  rw [defaultBandwidth_dB0]
  positivity

/-- The Gaussian exponent of the pair (origin point, centre point) of `dB0`
at bandwidth `1/2` is `-1`, at bandwidth `1/√12` it is `-3`. -/
theorem exponent_half : -(1 / 2 : ℝ) / (2 * (1 / 2 : ℝ) ^ 2) = -1 := by norm_num

theorem exponent_twelfth : -(1 / 2 : ℝ) / (2 * (1 / Real.sqrt 12) ^ 2) = -3 := by
  have h : (Real.sqrt 12) ^ 2 = 12 := Real.sq_sqrt (by norm_num)
  rw [div_pow, one_pow, h]
  norm_num

/-- The three kernel sums of `dB0`: the two coincident points see two unit
kernels and one at the centre distance, the centre point the reverse. -/
theorem kdeRaw_dB0 (h : ℝ) :
    kdeRaw dB0 h ⟨0, by norm_num [dB0]⟩
        = 2 + Real.exp (-(1 / 2) / (2 * h ^ 2))
    ∧ kdeRaw dB0 h ⟨1, by norm_num [dB0]⟩
        = 2 + Real.exp (-(1 / 2) / (2 * h ^ 2))
    ∧ kdeRaw dB0 h ⟨2, by norm_num [dB0]⟩
        = 2 * Real.exp (-(1 / 2) / (2 * h ^ 2)) + 1 := by
  have hexp : ∀ i : Fin dB0.length, kdeRaw dB0 h i
      = Real.exp (-(sqDistL dB0 i ⟨0, by norm_num [dB0]⟩) / (2 * h ^ 2))
        + Real.exp (-(sqDistL dB0 i ⟨1, by norm_num [dB0]⟩) / (2 * h ^ 2))
        + Real.exp (-(sqDistL dB0 i ⟨2, by norm_num [dB0]⟩) / (2 * h ^ 2)) :=
    fun i => Fin.sum_univ_three _
  have d00 : sqDistL dB0 ⟨0, by norm_num [dB0]⟩ ⟨0, by norm_num [dB0]⟩ = 0 := by
    simp [sqDistL, sqnorm, dB0]
  have d01 : sqDistL dB0 ⟨0, by norm_num [dB0]⟩ ⟨1, by norm_num [dB0]⟩ = 0 := by
    simp [sqDistL, sqnorm, dB0]
  have d02 : sqDistL dB0 ⟨0, by norm_num [dB0]⟩ ⟨2, by norm_num [dB0]⟩ = 1 / 2 := by
    simp [sqDistL, sqnorm, dB0]
    norm_num
  have d10 : sqDistL dB0 ⟨1, by norm_num [dB0]⟩ ⟨0, by norm_num [dB0]⟩ = 0 := by
    simp [sqDistL, sqnorm, dB0]
  have d11 : sqDistL dB0 ⟨1, by norm_num [dB0]⟩ ⟨1, by norm_num [dB0]⟩ = 0 := by
    simp [sqDistL, sqnorm, dB0]
  have d12 : sqDistL dB0 ⟨1, by norm_num [dB0]⟩ ⟨2, by norm_num [dB0]⟩ = 1 / 2 := by
    simp [sqDistL, sqnorm, dB0]
    norm_num
  have d20 : sqDistL dB0 ⟨2, by norm_num [dB0]⟩ ⟨0, by norm_num [dB0]⟩ = 1 / 2 := by
    simp [sqDistL, sqnorm, dB0]
    norm_num
  have d21 : sqDistL dB0 ⟨2, by norm_num [dB0]⟩ ⟨1, by norm_num [dB0]⟩ = 1 / 2 := by
    simp [sqDistL, sqnorm, dB0]
    norm_num
  have d22 : sqDistL dB0 ⟨2, by norm_num [dB0]⟩ ⟨2, by norm_num [dB0]⟩ = 0 := by
    simp [sqDistL, sqnorm, dB0]
  refine ⟨?_, ?_, ?_⟩
  · rw [hexp ⟨0, by norm_num [dB0]⟩, d00, d01, d02]
    rw [neg_zero, zero_div, Real.exp_zero]
    ring
  · rw [hexp ⟨1, by norm_num [dB0]⟩, d10, d11, d12]
    rw [neg_zero, zero_div, Real.exp_zero]
    ring
  · rw [hexp ⟨2, by norm_num [dB0]⟩, d20, d21, d22]
    rw [neg_zero, zero_div, Real.exp_zero]
    ring

/-- The normalised weight of the centre point of `dB0`. -/
theorem densityNorm_dB0 (h : ℝ) (hh : h ≠ 0) :
    densityNorm dB0 h ⟨2, by norm_num [dB0]⟩
      = (2 * Real.exp (-(1 / 2) / (2 * h ^ 2)) + 1)
        / (5 + 4 * Real.exp (-(1 / 2) / (2 * h ^ 2))) := by
  rw [densityNorm_eq dB0 h (by simp [dB0]) hh]
  obtain ⟨k0, k1, k2⟩ := kdeRaw_dB0 h
  have hsum : ∑ j : Fin dB0.length, kdeRaw dB0 h j
      = 5 + 4 * Real.exp (-(1 / 2) / (2 * h ^ 2)) := by
    have e : ∑ j : Fin dB0.length, kdeRaw dB0 h j
        = kdeRaw dB0 h ⟨0, by norm_num [dB0]⟩ + kdeRaw dB0 h ⟨1, by norm_num [dB0]⟩
          + kdeRaw dB0 h ⟨2, by norm_num [dB0]⟩ := Fin.sum_univ_three _
    rw [e, k0, k1, k2]
    ring
  rw [hsum, k2]

theorem cost_w0_dB0_0 :
    costMatrix (1, 0) (0, 1) w0 dB0 ⟨0, by norm_num [w0]⟩ ⟨0, by norm_num [dB0]⟩ = 0 :=
  costEntry_self (1, 0) (0, 1) ((0 : ℝ), (0 : ℝ))

theorem cost_w0_dB0_1 :
    costMatrix (1, 0) (0, 1) w0 dB0 ⟨0, by norm_num [w0]⟩ ⟨1, by norm_num [dB0]⟩ = 0 :=
  costEntry_self (1, 0) (0, 1) ((0 : ℝ), (0 : ℝ))

theorem cost_w0_dB0_2 :
    costMatrix (1, 0) (0, 1) w0 dB0 ⟨0, by norm_num [w0]⟩ ⟨2, by norm_num [dB0]⟩
      = Real.sqrt (1 / 2) :=
  costEntry_half

theorem cost_dB0_w0_2 :
    costMatrix (1, 0) (0, 1) dB0 w0 ⟨2, by norm_num [dB0]⟩ ⟨0, by norm_num [w0]⟩
      = Real.sqrt (1 / 2) :=
  (costEntry_comm (1, 0) (0, 1) ((0 : ℝ), (0 : ℝ)) ((1 / 2 : ℝ), (1 / 2 : ℝ))).trans
    costEntry_half

theorem otCost_w0_dB0 (ν : Fin dB0.length → ℝ) :
    otCost (costMatrix (1, 0) (0, 1) w0 dB0) (fun _ j => ν j)
      = ν ⟨2, by norm_num [dB0]⟩ * Real.sqrt (1 / 2) := by
  have e1 : otCost (costMatrix (1, 0) (0, 1) w0 dB0) (fun _ j => ν j)
      = ∑ j : Fin dB0.length,
          ν j * costMatrix (1, 0) (0, 1) w0 dB0 ⟨0, by norm_num [w0]⟩ j :=
    Fin.sum_univ_one _
  have e2 : ∑ j : Fin dB0.length,
        ν j * costMatrix (1, 0) (0, 1) w0 dB0 ⟨0, by norm_num [w0]⟩ j
      = ν ⟨0, by norm_num [dB0]⟩
          * costMatrix (1, 0) (0, 1) w0 dB0 ⟨0, by norm_num [w0]⟩ ⟨0, by norm_num [dB0]⟩
        + ν ⟨1, by norm_num [dB0]⟩
          * costMatrix (1, 0) (0, 1) w0 dB0 ⟨0, by norm_num [w0]⟩ ⟨1, by norm_num [dB0]⟩
        + ν ⟨2, by norm_num [dB0]⟩
          * costMatrix (1, 0) (0, 1) w0 dB0 ⟨0, by norm_num [w0]⟩ ⟨2, by norm_num [dB0]⟩ :=
    Fin.sum_univ_three _
  rw [e1, e2, cost_w0_dB0_0, cost_w0_dB0_1, cost_w0_dB0_2]
  ring

theorem otCost_dB0_w0 (μ : Fin dB0.length → ℝ) :
    otCost (costMatrix (1, 0) (0, 1) dB0 w0) (fun j _ => μ j)
      = μ ⟨2, by norm_num [dB0]⟩ * Real.sqrt (1 / 2) := by
  have e0 : ∀ j : Fin dB0.length,
      (∑ i : Fin w0.length, μ j * costMatrix (1, 0) (0, 1) dB0 w0 j i)
        = μ j * costMatrix (1, 0) (0, 1) dB0 w0 j ⟨0, by norm_num [w0]⟩ :=
    fun j => Fin.sum_univ_one _
  have e1 : otCost (costMatrix (1, 0) (0, 1) dB0 w0) (fun j _ => μ j)
      = ∑ j : Fin dB0.length,
          ∑ i : Fin w0.length, μ j * costMatrix (1, 0) (0, 1) dB0 w0 j i := rfl
  have e2 : ∑ j : Fin dB0.length,
        ∑ i : Fin w0.length, μ j * costMatrix (1, 0) (0, 1) dB0 w0 j i
      = ∑ j : Fin dB0.length,
          μ j * costMatrix (1, 0) (0, 1) dB0 w0 j ⟨0, by norm_num [w0]⟩ :=
    Finset.sum_congr rfl (fun j _ => e0 j)
  have e3 : ∑ j : Fin dB0.length,
        μ j * costMatrix (1, 0) (0, 1) dB0 w0 j ⟨0, by norm_num [w0]⟩
      = μ ⟨0, by norm_num [dB0]⟩
          * costMatrix (1, 0) (0, 1) dB0 w0 ⟨0, by norm_num [dB0]⟩ ⟨0, by norm_num [w0]⟩
        + μ ⟨1, by norm_num [dB0]⟩
          * costMatrix (1, 0) (0, 1) dB0 w0 ⟨1, by norm_num [dB0]⟩ ⟨0, by norm_num [w0]⟩
        + μ ⟨2, by norm_num [dB0]⟩
          * costMatrix (1, 0) (0, 1) dB0 w0 ⟨2, by norm_num [dB0]⟩ ⟨0, by norm_num [w0]⟩ :=
    Fin.sum_univ_three _
  have c0 : costMatrix (1, 0) (0, 1) dB0 w0 ⟨0, by norm_num [dB0]⟩ ⟨0, by norm_num [w0]⟩
      = 0 := costEntry_self (1, 0) (0, 1) ((0 : ℝ), (0 : ℝ))
  have c1 : costMatrix (1, 0) (0, 1) dB0 w0 ⟨1, by norm_num [dB0]⟩ ⟨0, by norm_num [w0]⟩
      = 0 := costEntry_self (1, 0) (0, 1) ((0 : ℝ), (0 : ℝ))
  rw [e1, e2, e3, c0, c1, cost_dB0_w0_2]
  ring

/-- The property claim C1 asserts of `calculate_distance` at a given pair of
inputs `(A, B)` with bandwidth unset: the periodic cost matrix of the swapped
call is the transpose of the original one, and for both the density-weighted
and the uniform variant the two calls return the same scalar distance with
transport plans that are transposes of each other.  The solver `ot.emd` is
modelled by its contract, so "the returned plan" means any plan satisfying
`isOptimalPlan` for that call's marginals (the default bandwidth of the
swapped call is computed from its own first argument, i.e. from `B`). -/
def claimC1At (a1 a2 : Pt) (A B : List Pt) : Prop :=
  (∀ (i : Fin A.length) (j : Fin B.length),
      costMatrix a1 a2 B A j i = costMatrix a1 a2 A B i j)
  ∧ (∀ (T : Fin A.length → Fin B.length → ℝ)
       (T' : Fin B.length → Fin A.length → ℝ),
      isOptimalPlan (densityNorm A (defaultBandwidth a1 A))
        (densityNorm B (defaultBandwidth a1 A)) (costMatrix a1 a2 A B) T →
      isOptimalPlan (densityNorm B (defaultBandwidth a1 B))
        (densityNorm A (defaultBandwidth a1 B)) (costMatrix a1 a2 B A) T' →
      otCost (costMatrix a1 a2 A B) T = otCost (costMatrix a1 a2 B A) T'
      ∧ ∀ i j, T' j i = T i j)
  ∧ (∀ (U : Fin A.length → Fin B.length → ℝ)
       (U' : Fin B.length → Fin A.length → ℝ),
      isOptimalPlan (uniformDist A.length) (uniformDist B.length)
        (costMatrix a1 a2 A B) U →
      isOptimalPlan (uniformDist B.length) (uniformDist A.length)
        (costMatrix a1 a2 B A) U' →
      otCost (costMatrix a1 a2 A B) U = otCost (costMatrix a1 a2 B A) U'
      ∧ ∀ i j, U' j i = U i j)

/-- Counterexample to claim C1: with the unit square lattice,
`A = [(0,0)]` and `B = [(0,0), (0,0), (1/2, 1/2)]`, the default bandwidth of
`calculate_distance(A, B)` is `1/2` but that of `calculate_distance(B, A)` is
`1/√12`, the two KDE weightings of `B` differ, and the density-weighted
distances of the two calls are different (the transport plan of each call is
forced, since one marginal is a singleton). -/
theorem claim_C1_counterexample : ¬ claimC1At (1, 0) (0, 1) w0 dB0 := by
  intro hcl
  have hbwAne : defaultBandwidth (1, 0) w0 ≠ 0 := by
    rw [defaultBandwidth_w0]
    norm_num
  have hT : isOptimalPlan (densityNorm w0 (defaultBandwidth (1, 0) w0))
      (densityNorm dB0 (defaultBandwidth (1, 0) w0)) (costMatrix (1, 0) (0, 1) w0 dB0)
      (fun _ j => densityNorm dB0 (defaultBandwidth (1, 0) w0) j) := by
    rw [densityNorm_w0 _ hbwAne]
    exact singletonRow_optimal _ _ (densityNorm_nonneg dB0 _)
      (densityNorm_sum_one dB0 _ (by simp [dB0]) hbwAne)
  have hT' : isOptimalPlan (densityNorm dB0 (defaultBandwidth (1, 0) dB0))
      (densityNorm w0 (defaultBandwidth (1, 0) dB0)) (costMatrix (1, 0) (0, 1) dB0 w0)
      (fun j _ => densityNorm dB0 (defaultBandwidth (1, 0) dB0) j) := by
    rw [densityNorm_w0 _ defaultBandwidth_dB0_ne]
    exact singletonCol_optimal _ _ (densityNorm_nonneg dB0 _)
      (densityNorm_sum_one dB0 _ (by simp [dB0]) defaultBandwidth_dB0_ne)
  obtain ⟨hcost, _⟩ := hcl.2.1 _ _ hT hT'
  rw [otCost_w0_dB0, otCost_dB0_w0] at hcost
  rw [densityNorm_dB0 _ hbwAne, densityNorm_dB0 _ defaultBandwidth_dB0_ne] at hcost
  rw [defaultBandwidth_w0, exponent_half] at hcost
  rw [defaultBandwidth_dB0, exponent_twelfth] at hcost
  have hs : (0 : ℝ) < Real.sqrt (1 / 2) := Real.sqrt_pos.mpr (by norm_num)
  have h1 : (2 * Real.exp (-1) + 1) / (5 + 4 * Real.exp (-1))
      = (2 * Real.exp (-3) + 1) / (5 + 4 * Real.exp (-3)) :=
    mul_right_cancel₀ (ne_of_gt hs) hcost
  have hapos : (0 : ℝ) < Real.exp (-1) := Real.exp_pos _
  have hbpos : (0 : ℝ) < Real.exp (-3) := Real.exp_pos _
  have hab : Real.exp (-3) < Real.exp (-1) := Real.exp_lt_exp.mpr (by norm_num)
  have hden1 : (0 : ℝ) < 5 + 4 * Real.exp (-1) := by linarith
  have hden2 : (0 : ℝ) < 5 + 4 * Real.exp (-3) := by linarith
  rw [div_eq_div_iff (ne_of_gt hden1) (ne_of_gt hden2)] at h1
  nlinarith [h1, hab]

/-- Amended claim C1: the swapped call's cost matrix is always the transpose
of the original one; the uniform variant returns the same scalar distance for
any valid sizes, and the transpose of any returned plan is an optimal plan of
the swapped problem; the density-weighted variant has the same two properties
whenever the two inputs have the same size (the default bandwidth depends on
the first argument's size only, so swapped calls then agree on it). -/
theorem claim_C1_amended (a1 a2 : Pt) (A B : List Pt) :
    (∀ (i : Fin A.length) (j : Fin B.length),
        costMatrix a1 a2 B A j i = costMatrix a1 a2 A B i j)
    ∧ (∀ (U : Fin A.length → Fin B.length → ℝ)
         (U' : Fin B.length → Fin A.length → ℝ),
        isOptimalPlan (uniformDist A.length) (uniformDist B.length)
          (costMatrix a1 a2 A B) U →
        isOptimalPlan (uniformDist B.length) (uniformDist A.length)
          (costMatrix a1 a2 B A) U' →
        otCost (costMatrix a1 a2 A B) U = otCost (costMatrix a1 a2 B A) U'
        ∧ isOptimalPlan (uniformDist B.length) (uniformDist A.length)
            (costMatrix a1 a2 B A) (fun j i => U i j))
    ∧ (A.length = B.length →
        ∀ (T : Fin A.length → Fin B.length → ℝ)
          (T' : Fin B.length → Fin A.length → ℝ),
        isOptimalPlan (densityNorm A (defaultBandwidth a1 A))
          (densityNorm B (defaultBandwidth a1 A)) (costMatrix a1 a2 A B) T →
        isOptimalPlan (densityNorm B (defaultBandwidth a1 B))
          (densityNorm A (defaultBandwidth a1 B)) (costMatrix a1 a2 B A) T' →
        otCost (costMatrix a1 a2 A B) T = otCost (costMatrix a1 a2 B A) T'
        ∧ isOptimalPlan (densityNorm B (defaultBandwidth a1 B))
            (densityNorm A (defaultBandwidth a1 B)) (costMatrix a1 a2 B A)
            (fun j i => T i j)) := by
  have hmat : costMatrix a1 a2 B A = fun j i => costMatrix a1 a2 A B i j := by
    funext j i
    exact costEntry_comm a1 a2 (A.get i) (B.get j)
  refine ⟨?_, ?_, ?_⟩
  · intro i j
    rw [hmat]
  · intro U U' hU hU'
    have hUt : isOptimalPlan (uniformDist B.length) (uniformDist A.length)
        (costMatrix a1 a2 B A) (fun j i => U i j) := by
      rw [hmat]
      exact isOptimalPlan_transpose _ _ _ _ hU
    refine ⟨?_, hUt⟩
    have := otCost_eq_of_optimal _ _ _ _ _ hU' hUt
    rw [this, hmat, otCost_transpose]
  · intro hlen T T' hT hT'
    have hbw : defaultBandwidth a1 A = defaultBandwidth a1 B := by
      unfold defaultBandwidth
      rw [hlen]
    rw [← hbw] at hT'
    have hTt : isOptimalPlan (densityNorm B (defaultBandwidth a1 A))
        (densityNorm A (defaultBandwidth a1 A)) (costMatrix a1 a2 B A)
        (fun j i => T i j) := by
      rw [hmat]
      exact isOptimalPlan_transpose _ _ _ _ hT
    refine ⟨?_, by rw [← hbw]; exact hTt⟩
    have := otCost_eq_of_optimal _ _ _ _ _ hT' hTt
    rw [this, hmat, otCost_transpose]

/-- Witness for the amended claim C1 on a singleton pair. -/
theorem claim_C1_amended_witness :
    otCost (costMatrix (1, 0) (0, 1) w0 w0) (fun _ _ => (1 : ℝ))
      = otCost (costMatrix (1, 0) (0, 1) w0 w0) (fun _ _ => (1 : ℝ)) := by
  have h := (claim_C1_amended (1, 0) (0, 1) w0 w0).2.2 rfl (fun _ _ => 1) (fun _ _ => 1)
    (w0_plan_density (1, 0) (0, 1) (defaultBandwidth (1, 0) w0)
      (by rw [defaultBandwidth_w0]; norm_num))
    (w0_plan_density (1, 0) (0, 1) (defaultBandwidth (1, 0) w0)
      (by rw [defaultBandwidth_w0]; norm_num))
  exact h.1

/-! ### Claim C2: the matching objective of `_map_to_cell` -/

/-- Source vertex list of the C2 counterexample. -/
noncomputable def c2orig : List Pt := [((0 : ℝ), (1 : ℝ)), ((-2 : ℝ), (0 : ℝ))]

/-- Target vertex list of the C2 counterexample. -/
noncomputable def c2tgt : List Pt := [((10 : ℝ), (0 : ℝ)), ((8 : ℝ), (1 : ℝ))]

theorem sqrt_hundred : Real.sqrt 100 = 10 := by
  rw [show (100 : ℝ) = 10 ^ 2 by norm_num, Real.sqrt_sq (by norm_num : (0 : ℝ) ≤ 10)]

theorem ten_le_sqrt_101 : (10 : ℝ) ≤ Real.sqrt 101 := by
  rw [← sqrt_hundred]
  exact Real.sqrt_le_sqrt (by norm_num)

/-- The cost matrix `_map_to_cell` builds on the counterexample instance
(source pivot at the origin, target pivot at `(10, 0)`). -/
noncomputable def c2code : Fin 2 → Fin 2 → ℝ :=
  fun i j => mapToCellCostMatrix c2orig c2tgt ((0 : ℝ), (0 : ℝ)) ((10 : ℝ), (0 : ℝ)) i j

/-- The common-frame cost matrix of claim C2 on the same instance. -/
noncomputable def c2claimed : Fin 2 → Fin 2 → ℝ :=
  fun i j => claimedCostMatrix c2orig c2tgt ((0 : ℝ), (0 : ℝ)) ((10 : ℝ), (0 : ℝ)) i j

theorem c2_m00 : c2code 0 0 = Real.sqrt 101 := by
  show ptNorm ((((0 : ℝ), (1 : ℝ)) - (((0 : ℝ), (0 : ℝ)) - ((10 : ℝ), (0 : ℝ))))
    - (((10 : ℝ), (0 : ℝ)) - ((10 : ℝ), (0 : ℝ)))) = Real.sqrt 101
  unfold ptNorm sqnorm
  norm_num [Prod.fst_sub, Prod.snd_sub]

theorem c2_m01 : c2code 0 1 = 12 := by
  show ptNorm ((((0 : ℝ), (1 : ℝ)) - (((0 : ℝ), (0 : ℝ)) - ((10 : ℝ), (0 : ℝ))))
    - (((8 : ℝ), (1 : ℝ)) - ((10 : ℝ), (0 : ℝ)))) = 12
  unfold ptNorm sqnorm
  rw [show ((((0 : ℝ), (1 : ℝ)) - (((0 : ℝ), (0 : ℝ)) - ((10 : ℝ), (0 : ℝ))))
      - (((8 : ℝ), (1 : ℝ)) - ((10 : ℝ), (0 : ℝ)))).1 ^ 2
      + ((((0 : ℝ), (1 : ℝ)) - (((0 : ℝ), (0 : ℝ)) - ((10 : ℝ), (0 : ℝ))))
      - (((8 : ℝ), (1 : ℝ)) - ((10 : ℝ), (0 : ℝ)))).2 ^ 2 = 12 ^ 2 by
    norm_num [Prod.fst_sub, Prod.snd_sub]]
  exact Real.sqrt_sq (by norm_num)

theorem c2_m10 : c2code 1 0 = 8 := by
  show ptNorm ((((-2 : ℝ), (0 : ℝ)) - (((0 : ℝ), (0 : ℝ)) - ((10 : ℝ), (0 : ℝ))))
    - (((10 : ℝ), (0 : ℝ)) - ((10 : ℝ), (0 : ℝ)))) = 8
  unfold ptNorm sqnorm
  rw [show ((((-2 : ℝ), (0 : ℝ)) - (((0 : ℝ), (0 : ℝ)) - ((10 : ℝ), (0 : ℝ))))
      - (((10 : ℝ), (0 : ℝ)) - ((10 : ℝ), (0 : ℝ)))).1 ^ 2
      + ((((-2 : ℝ), (0 : ℝ)) - (((0 : ℝ), (0 : ℝ)) - ((10 : ℝ), (0 : ℝ))))
      - (((10 : ℝ), (0 : ℝ)) - ((10 : ℝ), (0 : ℝ)))).2 ^ 2 = 8 ^ 2 by
    norm_num [Prod.fst_sub, Prod.snd_sub]]
  exact Real.sqrt_sq (by norm_num)

theorem c2_m11 : c2code 1 1 = Real.sqrt 101 := by
  show ptNorm ((((-2 : ℝ), (0 : ℝ)) - (((0 : ℝ), (0 : ℝ)) - ((10 : ℝ), (0 : ℝ))))
    - (((8 : ℝ), (1 : ℝ)) - ((10 : ℝ), (0 : ℝ)))) = Real.sqrt 101
  unfold ptNorm sqnorm
  norm_num [Prod.fst_sub, Prod.snd_sub]

theorem c2_n00 : c2claimed 0 0 = 1 := by
  show ptNorm ((((0 : ℝ), (1 : ℝ)) - ((0 : ℝ), (0 : ℝ)))
    - (((10 : ℝ), (0 : ℝ)) - ((10 : ℝ), (0 : ℝ)))) = 1
  unfold ptNorm sqnorm
  norm_num [Prod.fst_sub, Prod.snd_sub]

theorem c2_n01 : c2claimed 0 1 = 2 := by
  show ptNorm ((((0 : ℝ), (1 : ℝ)) - ((0 : ℝ), (0 : ℝ)))
    - (((8 : ℝ), (1 : ℝ)) - ((10 : ℝ), (0 : ℝ)))) = 2
  unfold ptNorm sqnorm
  rw [show ((((0 : ℝ), (1 : ℝ)) - ((0 : ℝ), (0 : ℝ)))
      - (((8 : ℝ), (1 : ℝ)) - ((10 : ℝ), (0 : ℝ)))).1 ^ 2
      + ((((0 : ℝ), (1 : ℝ)) - ((0 : ℝ), (0 : ℝ)))
      - (((8 : ℝ), (1 : ℝ)) - ((10 : ℝ), (0 : ℝ)))).2 ^ 2 = 2 ^ 2 by
    norm_num [Prod.fst_sub, Prod.snd_sub]]
  exact Real.sqrt_sq (by norm_num)

theorem c2_n10 : c2claimed 1 0 = 2 := by
  show ptNorm ((((-2 : ℝ), (0 : ℝ)) - ((0 : ℝ), (0 : ℝ)))
    - (((10 : ℝ), (0 : ℝ)) - ((10 : ℝ), (0 : ℝ)))) = 2
  unfold ptNorm sqnorm
  rw [show ((((-2 : ℝ), (0 : ℝ)) - ((0 : ℝ), (0 : ℝ)))
      - (((10 : ℝ), (0 : ℝ)) - ((10 : ℝ), (0 : ℝ)))).1 ^ 2
      + ((((-2 : ℝ), (0 : ℝ)) - ((0 : ℝ), (0 : ℝ)))
      - (((10 : ℝ), (0 : ℝ)) - ((10 : ℝ), (0 : ℝ)))).2 ^ 2 = 2 ^ 2 by
    norm_num [Prod.fst_sub, Prod.snd_sub]]
  exact Real.sqrt_sq (by norm_num)

theorem c2_n11 : c2claimed 1 1 = 1 := by
  show ptNorm ((((-2 : ℝ), (0 : ℝ)) - ((0 : ℝ), (0 : ℝ)))
    - (((8 : ℝ), (1 : ℝ)) - ((10 : ℝ), (0 : ℝ)))) = 1
  unfold ptNorm sqnorm
  norm_num [Prod.fst_sub, Prod.snd_sub]

theorem fin2_perm_apply (τ : Equiv.Perm (Fin 2)) :
    (τ 0 = 0 ∧ τ 1 = 1) ∨ (τ 0 = 1 ∧ τ 1 = 0) := by
  have h0 := (τ 0).isLt
  have h1 := (τ 1).isLt
  have hne : (τ 0 : ℕ) ≠ (τ 1 : ℕ) := fun h =>
    absurd (τ.injective (Fin.ext h)) (by decide)
  rcases (by omega : (τ 0 : ℕ) = 0 ∨ (τ 0 : ℕ) = 1) with ha | ha
  · exact Or.inl ⟨Fin.ext ha, Fin.ext (by omega)⟩
  · exact Or.inr ⟨Fin.ext ha, Fin.ext (by omega)⟩

/-- Counterexample to claim C2: a concrete remap instance (source pivot at
the origin, target pivot at `(10, 0)`) on which the assignment minimising the
cost matrix the code builds is the swap, uniquely, while the common-frame
("same frame") objective is minimised by the identity, uniquely.  So the
matching performed by `_map_to_cell` does not minimise the total Euclidean
distance after bringing both lists into the same frame. -/
theorem claim_C2_counterexample :
    ¬ ∀ σ : Equiv.Perm (Fin 2),
        isMinAssignment c2code σ → isMinAssignment c2claimed σ := by
  intro h
  have hswap : isMinAssignment c2code (Equiv.swap 0 1) := by
    intro τ
    have hsw0 : (Equiv.swap (0 : Fin 2) 1) 0 = 1 := Equiv.swap_apply_left 0 1
    have hsw1 : (Equiv.swap (0 : Fin 2) 1) 1 = 0 := Equiv.swap_apply_right 0 1
    rw [Fin.sum_univ_two, Fin.sum_univ_two, hsw0, hsw1, c2_m01, c2_m10]
    rcases fin2_perm_apply τ with ⟨h0, h1⟩ | ⟨h0, h1⟩
    · rw [h0, h1, c2_m00, c2_m11]
      have := ten_le_sqrt_101
      linarith
    · rw [h0, h1, c2_m01, c2_m10]
  have hcl := h (Equiv.swap 0 1) hswap
  have hid := hcl 1
  have hsw0 : (Equiv.swap (0 : Fin 2) 1) 0 = 1 := Equiv.swap_apply_left 0 1
  have hsw1 : (Equiv.swap (0 : Fin 2) 1) 1 = 0 := Equiv.swap_apply_right 0 1
  rw [Fin.sum_univ_two, Fin.sum_univ_two, hsw0, hsw1, c2_n01, c2_n10] at hid
  have e0 : ((1 : Equiv.Perm (Fin 2)) : Fin 2 → Fin 2) 0 = 0 := rfl
  have e1 : ((1 : Equiv.Perm (Fin 2)) : Fin 2 → Fin 2) 1 = 1 := rfl
  rw [e0, e1, c2_n00, c2_n11] at hid
  norm_num at hid

/-- Amended claim C2: the cost matrix `_map_to_cell` feeds to the assignment
solver holds the distances between the source vertices shifted by the
difference of the two pivots and the target vertices centered at the target
pivot — the common-frame distances offset by the target pivot; it coincides
with the common-frame cost matrix exactly when the target pivot is the
origin, so only then is the matching a common-frame minimum-distance
matching. -/
theorem claim_C2_amended (orig tgt : List Pt) (cO cT : Pt) :
    (∀ (i : Fin orig.length) (j : Fin tgt.length),
        mapToCellCostMatrix orig tgt cO cT i j
          = ptNorm (((orig.get i - cO) - (tgt.get j - cT)) + cT))
    ∧ (cT = ((0 : ℝ), (0 : ℝ)) →
        ∀ (i : Fin orig.length) (j : Fin tgt.length),
          mapToCellCostMatrix orig tgt cO cT i j
            = claimedCostMatrix orig tgt cO cT i j) := by
  constructor
  · intro i j
    unfold mapToCellCostMatrix
    congr 1
    obtain ⟨ox, oy⟩ := orig.get i
    obtain ⟨tx, ty⟩ := tgt.get j
    obtain ⟨ax, ay⟩ := cO
    obtain ⟨bx, by'⟩ := cT
    simp only [Prod.mk_sub_mk, Prod.mk_add_mk, Prod.mk.injEq]
    constructor <;> ring
  · intro hT i j
    subst hT
    unfold mapToCellCostMatrix claimedCostMatrix
    congr 1
    obtain ⟨ox, oy⟩ := orig.get i
    obtain ⟨tx, ty⟩ := tgt.get j
    obtain ⟨ax, ay⟩ := cO
    simp only [Prod.mk_sub_mk, Prod.mk.injEq]
    constructor <;> ring

/-- Witness for the amended claim C2: with the target pivot at the origin the
two matrices agree entrywise on the concrete lists. -/
theorem claim_C2_amended_witness :
    mapToCellCostMatrix c2orig c2tgt ((0 : ℝ), (0 : ℝ)) ((0 : ℝ), (0 : ℝ))
        ⟨0, by simp [c2orig]⟩ ⟨0, by simp [c2tgt]⟩
      = claimedCostMatrix c2orig c2tgt ((0 : ℝ), (0 : ℝ)) ((0 : ℝ), (0 : ℝ))
        ⟨0, by simp [c2orig]⟩ ⟨0, by simp [c2tgt]⟩ :=
  (claim_C2_amended c2orig c2tgt ((0 : ℝ), (0 : ℝ)) ((0 : ℝ), (0 : ℝ))).2 rfl
    ⟨0, by simp [c2orig]⟩ ⟨0, by simp [c2tgt]⟩

end Weaver
